import Mathlib

/-!
Verification of the signal-processing core of the `guitar_tuner` repository.

The Rust sources are shallowly embedded:
* `usize` arithmetic is modelled as `ℕ` with explicit wrap-around at `2 ^ 64`
  where the source relies on overflow semantics;
* `f32` arithmetic is modelled as exact arithmetic over `ℚ` (or `ℝ`/`ℂ` for
  the transcendental parts); the transcendental `f32` operations (`sin`,
  `cos`, `sqrt`) that the source calls are passed in as explicit function
  parameters where a result does not depend on their values, and are the
  exact real functions in the `ℝ`/`ℂ` model;
* partial slices / panics are modelled with `Option`;
* `MaybeUninit<T>` storage of the circular buffer is modelled as `Option`
  valued cells, `none` standing for uninitialized.
-/

namespace GuitarTuner

/-! ### usize model and `add_mod` / `sub_mod` (src/circular_buffer.rs:340-354) -/

/-- Number of values of a 64-bit `usize`. -/
def usizeSize : ℕ := 2 ^ 64

/-- `usize::MAX`. -/
def usizeMax : ℕ := usizeSize - 1

/-- Models the 64-bit bitwise complement `!m` of a `usize`. -/
def usize_not (m : ℕ) : ℕ := usizeMax - m

/-- Models `usize::overflowing_add`: the wrapped sum together with the
overflow flag. -/
def overflowing_add (x y : ℕ) : ℕ × Bool :=
  ((x + y) % usizeSize, decide (usizeSize ≤ x + y))

/-- Models `add_mod` from src/circular_buffer.rs:340:
`let (z, overflow) = x.overflowing_add(y); (z + (overflow as usize) * (usize::MAX % m + 1)) % m`. -/
def add_mod (x y m : ℕ) : ℕ :=
  let zo := overflowing_add x y
  (zo.1 + (if zo.2 then 1 else 0) * (usizeMax % m + 1)) % m

/-- Models `sub_mod` from src/circular_buffer.rs:349: `add_mod(x, m - y, m)`. -/
def sub_mod (x y m : ℕ) : ℕ :=
  add_mod x (m - y) m

/-- Helper: the remainder of a number at least `m` drops by at least `m`. -/
lemma mod_le_sub_of_le {a m : ℕ} (hm : 0 < m) (h : m ≤ a) : a % m ≤ a - m := by
  have hdm := Nat.div_add_mod a m
  have h1 : 1 ≤ a / m := (Nat.one_le_div_iff hm).mpr h
  have h2 : m * 1 ≤ m * (a / m) := Nat.mul_le_mul_left m h1
  omega

/-- Key facts about `add_mod`: on inputs bounded by the modulus it computes
the mathematical `(x + y) % m`, and the second addition in its body never
wraps (so there is no overflow panic in a debug build, even when `x + y`
itself overflows `usize`). -/
lemma add_mod_spec {x y m : ℕ} (hm : 0 < m) (hmax : m ≤ usizeMax)
    (hx : x ≤ m) (hy : y ≤ m) :
    add_mod x y m = (x + y) % m ∧
    (overflowing_add x y).1 +
      (if (overflowing_add x y).2 then 1 else 0) * (usizeMax % m + 1) < usizeSize := by
  have hM : usizeSize = 2 ^ 64 := rfl
  have hMax : usizeMax = 2 ^ 64 - 1 := rfl
  by_cases hov : usizeSize ≤ x + y
  · -- the first addition wraps
    have hxy : x + y < 2 * usizeSize := by
      simp only [hM] at *; omega
    have hz : (x + y) % usizeSize = x + y - usizeSize := by
      rw [Nat.mod_eq_sub_mod hov, Nat.mod_eq_of_lt (by simp only [hM] at *; omega)]
    have hdec : decide (usizeSize ≤ x + y) = true := decide_eq_true hov
    have hmle : usizeMax % m ≤ usizeMax - m := mod_le_sub_of_le hm hmax
    constructor
    · show ((x + y) % usizeSize + (if decide (usizeSize ≤ x + y) then 1 else 0)
          * (usizeMax % m + 1)) % m = (x + y) % m
      rw [hdec, if_pos rfl, one_mul, hz]
      have hcong : (x + y - usizeSize) + (usizeMax % m + 1) ≡
          (x + y - usizeSize) + (usizeMax + 1) [MOD m] := by
        exact Nat.ModEq.add_left _ (Nat.ModEq.add_right 1 (Nat.mod_modEq usizeMax m))
      have heq : (x + y - usizeSize) + (usizeMax + 1) = x + y := by
        simp only [hM, hMax] at *; omega
      calc ((x + y - usizeSize) + (usizeMax % m + 1)) % m
          = ((x + y - usizeSize) + (usizeMax + 1)) % m := hcong
        _ = (x + y) % m := by rw [heq]
    · show (x + y) % usizeSize + (if decide (usizeSize ≤ x + y) then 1 else 0)
          * (usizeMax % m + 1) < usizeSize
      rw [hdec, if_pos rfl, one_mul, hz]
      simp only [hM, hMax] at *
      omega
  · -- no wrap
    have hz : (x + y) % usizeSize = x + y := Nat.mod_eq_of_lt (by omega)
    have hdec : decide (usizeSize ≤ x + y) = false := decide_eq_false hov
    constructor
    · show ((x + y) % usizeSize + (if decide (usizeSize ≤ x + y) then 1 else 0)
          * (usizeMax % m + 1)) % m = (x + y) % m
      rw [hdec, if_neg (by simp), zero_mul, add_zero, hz]
    · show (x + y) % usizeSize + (if decide (usizeSize ≤ x + y) then 1 else 0)
          * (usizeMax % m + 1) < usizeSize
      rw [hdec, if_neg (by simp), zero_mul, add_zero, hz]
      omega

/-- On bounded inputs `add_mod` is plain addition mod `m`. -/
lemma add_mod_eq {x y m : ℕ} (hm : 0 < m) (hmax : m ≤ usizeMax)
    (hx : x ≤ m) (hy : y ≤ m) : add_mod x y m = (x + y) % m :=
  (add_mod_spec hm hmax hx hy).1

/-- On bounded inputs `sub_mod` is integer subtraction mod `m`. -/
lemma sub_mod_eq {x y m : ℕ} (hm : 0 < m) (hmax : m ≤ usizeMax)
    (hx : x ≤ m) (hy : y ≤ m) :
    (sub_mod x y m : ℤ) = ((x : ℤ) - y) % (m : ℤ) := by
  unfold sub_mod
  rw [add_mod_eq hm hmax hx (Nat.sub_le m y)]
  push_cast [Nat.cast_sub hy]
  have : (x : ℤ) + ((m : ℤ) - y) = ((x : ℤ) - y) + m * 1 := by ring
  rw [this, Int.add_mul_emod_self_left]

/-- C6: for every modulus `m > 0` (a buffer capacity, hence at most
`usize::MAX`) and every `x ≤ m`, `y ≤ m`, `add_mod x y m = (x + y) % m` and
`sub_mod x y m = (x - y) mod m` (as integers), and neither function panics:
the `m - y` subtraction cannot underflow and the second addition inside
`add_mod` stays below `2^64` even when `x + y` overflows `usize`. -/
theorem c6_add_sub_mod_correct (x y m : ℕ) (hm : 0 < m) (hmax : m ≤ usizeMax)
    (hx : x ≤ m) (hy : y ≤ m) :
    add_mod x y m = (x + y) % m ∧
    (sub_mod x y m : ℤ) = ((x : ℤ) - y) % (m : ℤ) ∧
    ((overflowing_add x y).1 +
      (if (overflowing_add x y).2 then 1 else 0) * (usizeMax % m + 1) < usizeSize) ∧
    ((overflowing_add x (m - y)).1 +
      (if (overflowing_add x (m - y)).2 then 1 else 0) * (usizeMax % m + 1) < usizeSize) ∧
    y ≤ m :=
  ⟨add_mod_eq hm hmax hx hy, sub_mod_eq hm hmax hx hy,
   (add_mod_spec hm hmax hx hy).2,
   (add_mod_spec hm hmax hx (Nat.sub_le m y)).2, hy⟩

/-- Witness for C6 at a modulus and summands equal to `usize::MAX`, which
drives the internal `overflowing_add` through its wrap-around path. -/
theorem c6_add_sub_mod_correct_witness :
    add_mod usizeMax usizeMax usizeMax = (usizeMax + usizeMax) % usizeMax ∧
    (sub_mod usizeMax usizeMax usizeMax : ℤ) =
      ((usizeMax : ℤ) - usizeMax) % (usizeMax : ℤ) ∧
    ((overflowing_add usizeMax usizeMax).1 +
      (if (overflowing_add usizeMax usizeMax).2 then 1 else 0) *
        (usizeMax % usizeMax + 1) < usizeSize) ∧
    ((overflowing_add usizeMax (usizeMax - usizeMax)).1 +
      (if (overflowing_add usizeMax (usizeMax - usizeMax)).2 then 1 else 0) *
        (usizeMax % usizeMax + 1) < usizeSize) ∧
    usizeMax ≤ usizeMax :=
  c6_add_sub_mod_correct usizeMax usizeMax usizeMax
    (by norm_num [usizeMax, usizeSize]) le_rfl le_rfl le_rfl

/-! ### `lower_power_of_two` (src/fft.rs:12-18) and `usize::is_power_of_two` -/

/-- Models `u32::leading_zeros`/`usize::leading_zeros` on a 64-bit word for
positive arguments: `64 - (⌊log2 n⌋ + 1)`. -/
def leading_zeros (n : ℕ) : ℕ := 64 - (Nat.log2 n + 1)

/-- Models `lower_power_of_two` from src/fft.rs:12: if `n & (n-1) == 0`
return `n`, else `0x8000000000000000 >> n.leading_zeros()`. -/
def lower_power_of_two (n : ℕ) : ℕ :=
  if n &&& (n - 1) = 0 then n else (2 ^ 63) >>> leading_zeros n

/-- Models `usize::is_power_of_two` (`count_ones() == 1`). -/
def is_power_of_two (n : ℕ) : Bool :=
  decide (0 < n) && decide (n &&& (n - 1) = 0)

/-- A power of two has no bits in common with its predecessor. -/
lemma two_pow_and_pred (k : ℕ) : 2 ^ k &&& (2 ^ k - 1) = 0 := by
  apply Nat.eq_of_testBit_eq
  intro i
  rw [Nat.testBit_and, Nat.testBit_two_pow, Nat.testBit_two_pow_sub_one,
    Nat.zero_testBit]
  by_cases h : k = i
  · subst h
    simp
  · simp [h]

lemma is_power_of_two_pow (k : ℕ) : is_power_of_two (2 ^ k) = true := by
  simp [is_power_of_two, two_pow_and_pred, Nat.pos_pow_of_pos]

lemma lower_power_of_two_pow (k : ℕ) : lower_power_of_two (2 ^ k) = 2 ^ k := by
  simp [lower_power_of_two, two_pow_and_pred]

/-! ### `f32` rounding helpers -/

/-- Models `f32::round` (round half away from zero) on the exact value. -/
def rustRound (q : ℚ) : ℚ :=
  if q < 0 then -((⌊-q + 1/2⌋ : ℤ) : ℚ) else ((⌊q + 1/2⌋ : ℤ) : ℚ)

/-- Models `(f * 100.0).round() / 100.0` from `strongest_freq`
(src/audio_analysis.rs:235). -/
def round2 (q : ℚ) : ℚ := rustRound (q * 100) / 100

/-! ### `FFT::freq_table` (src/fft.rs:113-121) -/

/-- Models `FFT::freq_table(n, scalar)`:
`val = 1 / (n * scalar)`, `n_c = (n - 1) / 2 + 1`,
`p1 = 0..n_c`, `p2 = -(n/2)..0`, result `= (p1 ++ p2).map (x * val)`. -/
def freq_table (n : ℕ) (scalar : ℚ) : List ℚ :=
  ((List.range ((n - 1) / 2 + 1)).map (fun i : ℕ => (i : ℤ)) ++
    (List.range (n / 2)).map (fun i : ℕ => (i : ℤ) - ((n / 2 : ℕ) : ℤ))).map
    (fun x : ℤ => (x : ℚ) * (1 / (n * scalar)))

lemma getD_map_range {α : Type _} (f : ℕ → α) (n i : ℕ) (d : α) (h : i < n) :
    ((List.range n).map f).getD i d = f i := by
  rw [List.getD_eq_getElem?_getD, List.getElem?_map, List.getElem?_range h]
  rfl

lemma freq_table_length (n : ℕ) (scalar : ℚ) (hn : 1 ≤ n) :
    (freq_table n scalar).length = n := by
  simp only [freq_table, List.length_map, List.length_append, List.length_range]
  omega

/-- Entry characterization of `freq_table` over the first chunk. -/
lemma freq_table_getD_low {n : ℕ} (scalar : ℚ) {i : ℕ} (h : i < (n - 1) / 2 + 1) :
    (freq_table n scalar).getD i 0 = (i : ℚ) * (1 / (n * scalar)) := by
  simp only [freq_table, List.map_append, List.map_map]
  rw [List.getD_append _ _ _ _ (by simpa using h)]
  rw [getD_map_range _ _ _ _ h]
  simp

/-- Entry characterization of `freq_table` over the negative chunk. -/
lemma freq_table_getD_high {n : ℕ} (scalar : ℚ) {i : ℕ}
    (h1 : (n - 1) / 2 + 1 ≤ i) (h2 : i < n) :
    (freq_table n scalar).getD i 0 =
      ((i : ℚ) - (n : ℚ)) * (1 / (n * scalar)) := by
  have hnc : (n - 1) / 2 + 1 + n / 2 = n := by omega
  simp only [freq_table, List.map_append, List.map_map]
  rw [List.getD_append_right _ _ _ _ (by simpa using h1)]
  simp only [List.length_map, List.length_range]
  have hlt : i - ((n - 1) / 2 + 1) < n / 2 := by omega
  rw [getD_map_range _ _ _ _ hlt]
  simp only [Function.comp_apply]
  rw [show ((i - ((n - 1) / 2 + 1) : ℕ) : ℤ) - ((n / 2 : ℕ) : ℤ) = (i : ℤ) - (n : ℤ)
    from by omega]
  push_cast
  ring

/-- Models `Iterator::step_by(n)` on a list: yields the elements at indices
`0, n, 2n, …`. The fuel argument (any value at least the list length works)
only forces structural termination. -/
def step_by {α : Type _} : ℕ → List α → ℕ → List α
  | 0, _, _ => []
  | _ + 1, [], _ => []
  | fuel + 1, a :: as, n => a :: step_by fuel (as.drop (n - 1)) n

lemma step_by_getElem? {α : Type _} {i : ℕ} (hi : 1 ≤ i) :
    ∀ (fuel : ℕ) (l : List α), l.length ≤ fuel → ∀ b, (step_by fuel l i)[b]? = l[b * i]? := by
  intro fuel
  induction fuel with
  | zero =>
    intro l hl b
    interval_cases hlen : l.length
    · rw [List.length_eq_zero] at hlen
      subst hlen
      simp [step_by]
  | succ n ih =>
    intro l hl b
    match l with
    | [] => simp [step_by]
    | a :: as =>
      match b with
      | 0 => simp [step_by]
      | b + 1 =>
        have hdrop : (as.drop (i - 1)).length ≤ n := by
          simp only [List.length_drop]
          simp only [List.length_cons] at hl
          omega
        show (a :: step_by n (as.drop (i - 1)) i)[b + 1]? = (a :: as)[(b + 1) * i]?
        rw [List.getElem?_cons_succ, ih (as.drop (i - 1)) hdrop b, List.getElem?_drop]
        have harith : (b + 1) * i = (i - 1 + b * i) + 1 := by
          cases i with
          | zero => omega
          | succ j =>
            simp only [Nat.add_sub_cancel]
            ring
        rw [harith, List.getElem?_cons_succ]

lemma step_by_length {α : Type _} {i : ℕ} (hi : 1 ≤ i) :
    ∀ (fuel : ℕ) (l : List α), l.length ≤ fuel →
      (step_by fuel l i).length = (l.length + i - 1) / i := by
  intro fuel
  induction fuel with
  | zero =>
    intro l hl
    have : l = [] := List.length_eq_zero.mp (by omega)
    subst this
    show (0 : ℕ) = (0 + i - 1) / i
    rw [Nat.div_eq_of_lt (by omega)]
  | succ n ih =>
    intro l hl
    match l with
    | [] =>
      show (0 : ℕ) = (0 + i - 1) / i
      rw [Nat.div_eq_of_lt (by omega)]
    | a :: as =>
      have hdrop : (as.drop (i - 1)).length ≤ n := by
        simp only [List.length_drop]
        simp only [List.length_cons] at hl
        omega
      show (a :: step_by n (as.drop (i - 1)) i).length = _
      rw [List.length_cons, ih (as.drop (i - 1)) hdrop]
      simp only [List.length_drop, List.length_cons]
      rcases Nat.le_total as.length (i - 1) with h | h
      · have hz : as.length - (i - 1) = 0 := Nat.sub_eq_zero_of_le h
        rw [hz, Nat.div_eq_of_lt (by omega)]
        have hone : (as.length + 1 + i - 1) / i = 1 := by
          apply Nat.div_eq_of_lt_le
          · omega
          · have : (1 + 1) * i = i + i := by ring
            omega
        rw [hone]
      · have h2 : as.length - (i - 1) + i - 1 = as.length := by omega
        rw [h2]
        have h3 : as.length + 1 + i - 1 = as.length + i := by omega
        rw [h3]
        rw [Nat.add_div_right _ (by omega)]

/-- One iteration of the HPS loop (src/audio_analysis.rs:192-200):
`hps_len = len.div_ceil(i)`, and
`buffer[..hps_len].iter_mut().zip(copy.iter().step_by(i)).for_each(|(a,b)| *a *= b)`. -/
def hps_step (copy : List ℚ) (i : ℕ) (buffer : List ℚ) : List ℚ :=
  let hps_len := (buffer.length + i - 1) / i
  let head_part := buffer.take hps_len
  let zipped := List.zipWith (· * ·) head_part (step_by copy.length copy i)
  zipped ++ head_part.drop zipped.length ++ buffer.drop hps_len

/-- Models `apply_harmonic_product_spectrum(count, buffer)`: the frozen
`copy` of the buffer is taken once, then `for i in 2..=count` runs
`hps_step`. -/
def apply_harmonic_product_spectrum (count : ℕ) (buffer : List ℚ) : List ℚ :=
  (List.range' 2 (count - 1)).foldl (fun buf i => hps_step buffer i buf) buffer

lemma ceil_div_le_self {len i : ℕ} (hi : 1 ≤ i) : (len + i - 1) / i ≤ len := by
  rcases Nat.eq_zero_or_pos len with h | h
  · rw [h, Nat.div_eq_of_lt (by omega)]
  · apply Nat.div_le_of_le_mul
    have h1 : i = 1 + (i - 1) := by omega
    have h2 : i * len = len + (i - 1) * len := by
      conv_lhs => rw [h1]
      rw [Nat.add_mul, Nat.one_mul]
    have h3 : 1 * (i - 1) ≤ len * (i - 1) := Nat.mul_le_mul_right _ h
    have h4 : len * (i - 1) = (i - 1) * len := Nat.mul_comm _ _
    omega

lemma hps_step_length {copy buf : List ℚ} {i : ℕ} (hi : 1 ≤ i)
    (hlen : copy.length = buf.length) : (hps_step copy i buf).length = buf.length := by
  unfold hps_step
  have hceil : (buf.length + i - 1) / i ≤ buf.length := ceil_div_le_self hi
  simp only [List.length_append, List.length_zipWith, List.length_take,
    List.length_drop, step_by_length hi copy.length copy le_rfl, hlen]
  omega

lemma hps_step_getD {copy buf : List ℚ} {i b : ℕ} (hi : 1 ≤ i)
    (hlen : copy.length = buf.length) (hb : b < buf.length) :
    (hps_step copy i buf).getD b 0 =
      if b * i < buf.length then buf.getD b 0 * copy.getD (b * i) 0
      else buf.getD b 0 := by
  have hstep_len : (step_by copy.length copy i).length = (buf.length + i - 1) / i := by
    rw [step_by_length hi copy.length copy le_rfl, hlen]
  have hceil_le : (buf.length + i - 1) / i ≤ buf.length := ceil_div_le_self hi
  have hz_len : (List.zipWith (· * ·) (buf.take ((buf.length + i - 1) / i))
      (step_by copy.length copy i)).length = (buf.length + i - 1) / i := by
    rw [List.length_zipWith, List.length_take, hstep_len]
    omega
  have hexp : (b + 1) * i = b * i + i := by ring
  have hb_iff : b < (buf.length + i - 1) / i ↔ b * i < buf.length := by
    constructor
    · intro h
      have h2 : b + 1 ≤ (buf.length + i - 1) / i := h
      rw [Nat.le_div_iff_mul_le (by omega)] at h2
      omega
    · intro h
      have h2 : (b + 1) * i ≤ buf.length + i - 1 := by omega
      have := (Nat.le_div_iff_mul_le (k := i) (by omega)).mpr h2
      omega
  have hmid : (buf.take ((buf.length + i - 1) / i)).drop
      ((List.zipWith (· * ·) (buf.take ((buf.length + i - 1) / i))
        (step_by copy.length copy i)).length) = [] := by
    rw [hz_len, List.drop_eq_nil_iff, List.length_take]
    omega
  show ((List.zipWith (· * ·) (buf.take ((buf.length + i - 1) / i))
      (step_by copy.length copy i)) ++ _ ++ buf.drop ((buf.length + i - 1) / i)).getD b 0 = _
  rw [hmid, List.append_nil]
  by_cases hcase : b < (buf.length + i - 1) / i
  · rw [List.getD_append _ _ _ _ (by rw [hz_len]; exact hcase)]
    have hbi : b * i < buf.length := hb_iff.mp hcase
    rw [if_pos hbi]
    rw [List.getD_eq_getElem?_getD, List.getElem?_zipWith, List.getElem?_take,
      if_pos hcase, step_by_getElem? hi copy.length copy le_rfl b,
      List.getElem?_eq_getElem hb, List.getElem?_eq_getElem (by omega : b * i < copy.length)]
    simp only [Option.getD_some]
    rw [List.getD_eq_getElem _ _ hb, List.getD_eq_getElem _ _ (by omega : b * i < copy.length)]
  · rw [List.getD_append_right _ _ _ _ (by rw [hz_len]; omega)]
    rw [hz_len]
    have hbi : ¬ b * i < buf.length := fun h => hcase (hb_iff.mpr h)
    rw [if_neg hbi]
    rw [List.getD_eq_getElem?_getD, List.getElem?_drop, List.getD_eq_getElem?_getD,
      show (buf.length + i - 1) / i + (b - (buf.length + i - 1) / i) = b from by omega]

/-- C3 counterexample: with harmonic count 2 and buffer `[2, 3, 5]`
(length 3), the code multiplies bin `1` by the frozen bin `2` — index `1`
equals `len / 2 = 1`, which the claim says is left unchanged by the `h = 2`
step. The code yields `15` there, the claim demands the original `3`. -/
theorem c3_hps_counterexample :
    (apply_harmonic_product_spectrum 2 [2, 3, 5]).getD 1 0 = 15 ∧
    (15 : ℚ) ≠ 3 ∧ (1 : ℕ) = 3 / 2 := by
  refine ⟨?_, by norm_num, by norm_num⟩
  norm_num [apply_harmonic_product_spectrum, hps_step, step_by, List.range']

/-- C3 amended: for every harmonic count and buffer, the result has the
same length, and bin `b` of the result is the original bin `b` multiplied
by the frozen original bin `b·h` for every harmonic `h` in `[2, count]`
with `b·h < len` (the per-step range is `[0, ceil(len/h))`, i.e. exactly
those `b` with `b·h < len`, not `[0, len/h)`); every factor comes from the
frozen pre-HPS copy. -/
theorem c3_hps_frozen_copy (count : ℕ) (buffer : List ℚ) (b : ℕ)
    (hb : b < buffer.length) :
    (apply_harmonic_product_spectrum count buffer).length = buffer.length ∧
    (apply_harmonic_product_spectrum count buffer).getD b 0 =
      buffer.getD b 0 *
        ((List.range' 2 (count - 1)).map
          (fun h => if b * h < buffer.length then buffer.getD (b * h) 0 else 1)).prod := by
  have main : ∀ (hs : List ℕ), (∀ h ∈ hs, 1 ≤ h) → ∀ (buf : List ℚ),
      buf.length = buffer.length →
      (hs.foldl (fun acc i => hps_step buffer i acc) buf).length = buffer.length ∧
      (hs.foldl (fun acc i => hps_step buffer i acc) buf).getD b 0 =
        buf.getD b 0 *
          (hs.map (fun h => if b * h < buffer.length then buffer.getD (b * h) 0 else 1)).prod := by
    intro hs
    induction hs with
    | nil =>
      intro _ buf hlen
      simpa using hlen
    | cons h t ih =>
      intro hall buf hlen
      have hh : 1 ≤ h := hall h (by simp)
      have hstep_len : (hps_step buffer h buf).length = buffer.length := by
        rw [hps_step_length hh (by omega)]
        exact hlen
      have := ih (fun x hx => hall x (by simp [hx])) (hps_step buffer h buf) hstep_len
      refine ⟨this.1, ?_⟩
      simp only [List.foldl_cons, List.map_cons, List.prod_cons]
      rw [this.2]
      rw [hps_step_getD hh (by omega) (by omega)]
      rw [hlen]
      by_cases hc : b * h < buffer.length
      · rw [if_pos hc, if_pos hc]
        ring
      · rw [if_neg hc, if_neg hc]
        ring
  have := main (List.range' 2 (count - 1)) (by
    intro h hh
    have := List.mem_range'.mp hh
    omega) buffer rfl
  exact this

/-- Witness for C3 amended at `count = 3`, `buffer = [2, 3, 5, 7]`, `b = 1`. -/
theorem c3_hps_frozen_copy_witness :
    (1 : ℕ) < ([2, 3, 5, 7] : List ℚ).length ∧
    (apply_harmonic_product_spectrum 3 [2, 3, 5, 7]).length = ([2, 3, 5, 7] : List ℚ).length ∧
    (apply_harmonic_product_spectrum 3 [2, 3, 5, 7]).getD 1 0 =
      ([2, 3, 5, 7] : List ℚ).getD 1 0 *
        ((List.range' 2 (3 - 1)).map
          (fun h => if 1 * h < ([2, 3, 5, 7] : List ℚ).length
            then ([2, 3, 5, 7] : List ℚ).getD (1 * h) 0 else 1)).prod :=
  ⟨by norm_num, c3_hps_frozen_copy 3 [2, 3, 5, 7] 1 (by norm_num)⟩

/-! ### `CircularBuffer` (src/circular_buffer.rs) -/

/-- Models `CircularBuffer<T>`: `items` is the backing `Box<[MaybeUninit<T>]>`
with `none` standing for an uninitialized slot. -/
structure CircularBuffer (α : Type _) where
  size : ℕ
  start : ℕ
  items : List (Option α)

namespace CircularBuffer

variable {α : Type _}

/-- Models `CircularBuffer::new(capacity)`. -/
def new (capacity : ℕ) : CircularBuffer α :=
  ⟨0, 0, List.replicate capacity none⟩

/-- Models `capacity()` (`self.items.len()`). -/
def capacity (b : CircularBuffer α) : ℕ := b.items.length

/-- Models `push_back(item)` (src/circular_buffer.rs:221-238), returning the
pair (returned `Option<T>`, updated buffer). When full, the front slot is
replaced (`mem::replace`) and `start` advances; otherwise the size grows
and the new back slot (`add_mod(start, size - 1, capacity)` after the size
increment) is written. -/
def push_back (b : CircularBuffer α) (item : α) : Option α × CircularBuffer α :=
  if b.capacity = 0 then (some item, b)
  else if b.capacity ≤ b.size then
    (b.items.getD b.start none,
     { size := b.size,
       start := add_mod b.start 1 b.capacity,
       items := b.items.set b.start (some item) })
  else
    (none,
     { size := b.size + 1,
       start := b.start,
       items := b.items.set (add_mod b.start b.size b.capacity) (some item) })

/-- Models `pop_front()` (src/circular_buffer.rs:138-149). -/
def pop_front (b : CircularBuffer α) : Option α × CircularBuffer α :=
  if b.capacity = 0 ∨ b.size = 0 then (none, b)
  else
    (b.items.getD b.start none,
     { size := b.size - 1,
       start := add_mod b.start 1 b.capacity,
       items := b.items })

/-- Models `make_contiguous()` (src/circular_buffer.rs:105-126), returning
the pair (returned slice, updated buffer). When the logical window does not
wrap (`start < end`) the storage and `start` are untouched and the slice is
`items[start..end]`; otherwise `start` is reset to 0 and the storage is
rotated left by the old `start`. -/
def make_contiguous (b : CircularBuffer α) : List (Option α) × CircularBuffer α :=
  if b.capacity = 0 ∨ b.size = 0 then ([], b)
  else
    let e := add_mod b.start b.size b.capacity
    if b.start < e then
      ((b.items.drop b.start).take (e - b.start), b)
    else
      ((b.items.rotate b.start).take b.size,
       { size := b.size, start := 0, items := b.items.rotate b.start })

/-- Structural invariant of a reachable buffer: `size` fits the capacity,
`start` is in range, the capacity fits a `usize`, and every slot of the
logical window is initialized. -/
def WF (b : CircularBuffer α) : Prop :=
  b.size ≤ b.capacity ∧
  (b.capacity = 0 → b.start = 0) ∧
  (0 < b.capacity → b.start < b.capacity) ∧
  b.capacity ≤ usizeMax ∧
  ∀ j, j < b.size → (b.items.getD ((b.start + j) % b.capacity) none).isSome

/-- The logical contents of the buffer, oldest first (what `iter()` /
`as_slices()` yield), as a list of cells. -/
def logicalList (b : CircularBuffer α) : List (Option α) :=
  (List.range b.size).map (fun j => b.items.getD ((b.start + j) % b.capacity) none)

lemma logicalList_length (b : CircularBuffer α) : (logicalList b).length = b.size := by
  simp [logicalList]

lemma logicalList_getD {b : CircularBuffer α} {j : ℕ} (hj : j < b.size) :
    (logicalList b).getD j none = b.items.getD ((b.start + j) % b.capacity) none :=
  getD_map_range _ _ _ _ hj

lemma WF_new (capacity : ℕ) (hcap : capacity ≤ usizeMax) :
    WF (new (α := α) capacity) := by
  refine ⟨by simp [new, CircularBuffer.capacity], by simp [new], ?_, ?_, ?_⟩ <;>
    simp [new, CircularBuffer.capacity, hcap]

lemma logicalList_new (capacity : ℕ) : logicalList (new (α := α) capacity) = [] := by
  simp [logicalList, new]

/-- Evaluating `a % cap` when `a < 2 * cap`. -/
lemma mod_two_cases {a cap : ℕ} (hc : 0 < cap) (h : a < 2 * cap) :
    a % cap = if a < cap then a else a - cap := by
  have := hc
  split
  · exact Nat.mod_eq_of_lt (by assumption)
  · rw [Nat.mod_eq_sub_mod (by omega), Nat.mod_eq_of_lt (by omega)]

lemma getD_set_self {β : Type _} {l : List β} {i : ℕ} {d : β} (h : i < l.length) (v : β) :
    (l.set i v).getD i d = v := by
  rw [List.getD_eq_getElem?_getD, List.getElem?_set]
  simp [h]

lemma getD_set_ne {β : Type _} {l : List β} {i j : ℕ} {d : β} (hne : i ≠ j) (v : β) :
    (l.set i v).getD j d = l.getD j d := by
  rw [List.getD_eq_getElem?_getD, List.getElem?_set_ne hne, ← List.getD_eq_getElem?_getD]

lemma add_mod_eq_self_iff {s r cap : ℕ} (hs : s < cap) (hr : r < cap) :
    (s + r) % cap = s ↔ r = 0 := by
  rw [mod_two_cases (by omega) (by omega)]
  split <;> omega

/-- In a full buffer every physical slot is initialized. -/
lemma full_all_isSome {b : CircularBuffer α} (h : WF b) (hc : 0 < b.capacity)
    (hf : b.capacity ≤ b.size) :
    ∀ p, p < b.capacity → (b.items.getD p none).isSome := by
  intro p hp
  obtain ⟨hsz, -, hst, -, hsome⟩ := h
  have hstart : b.start < b.capacity := hst hc
  have hj : (p + b.capacity - b.start) % b.capacity < b.size :=
    lt_of_lt_of_le (Nat.mod_lt _ hc) hf
  have hidx : (b.start + (p + b.capacity - b.start) % b.capacity) % b.capacity = p := by
    have h1 : b.start + (p + b.capacity - b.start) % b.capacity ≡
        b.start + (p + b.capacity - b.start) [MOD b.capacity] :=
      Nat.ModEq.add_left _ (Nat.mod_modEq _ _)
    have h2 : b.start + (p + b.capacity - b.start) = p + b.capacity := by omega
    calc (b.start + (p + b.capacity - b.start) % b.capacity) % b.capacity
        = (b.start + (p + b.capacity - b.start)) % b.capacity := h1
      _ = (p + b.capacity) % b.capacity := by rw [h2]
      _ = p % b.capacity := Nat.add_mod_right p b.capacity
      _ = p := Nat.mod_eq_of_lt hp
  have := hsome _ hj
  rwa [hidx] at this

/-- `push_back` on a zero-capacity buffer: nothing is stored and the pushed
item is returned. -/
lemma push_back_zero_cap {b : CircularBuffer α} (hc : b.capacity = 0) (x : α) :
    push_back b x = (some x, b) := by
  simp [push_back, hc]

/-- `push_back` on a non-full buffer: returns `none`, appends the item. -/
lemma push_back_not_full {b : CircularBuffer α} (h : WF b) (x : α)
    (hnf : b.size < b.capacity) :
    (push_back b x).1 = none ∧
    WF (push_back b x).2 ∧
    (push_back b x).2.capacity = b.capacity ∧
    (push_back b x).2.size = b.size + 1 ∧
    (push_back b x).2.start = b.start ∧
    logicalList (push_back b x).2 = logicalList b ++ [some x] := by
  obtain ⟨hsz, -, hst, hcm, hsome⟩ := h
  have hc : 0 < b.capacity := by omega
  have hstart : b.start < b.capacity := hst hc
  have hitems_len : b.items.length = b.capacity := rfl
  have hidx : add_mod b.start b.size b.capacity = (b.start + b.size) % b.capacity :=
    add_mod_eq hc hcm (by omega) (by omega)
  have hpush : push_back b x = (none,
      ⟨b.size + 1, b.start, b.items.set (add_mod b.start b.size b.capacity) (some x)⟩) := by
    simp only [push_back, if_neg (show ¬ b.capacity = 0 by omega),
      if_neg (show ¬ b.capacity ≤ b.size by omega)]
  have hcap' : (⟨b.size + 1, b.start,
      b.items.set (add_mod b.start b.size b.capacity) (some x)⟩ :
      CircularBuffer α).capacity = b.capacity := by
    show (b.items.set _ _).length = b.capacity
    rw [List.length_set]
    exact hitems_len
  have hmod_lt : (b.start + b.size) % b.capacity < b.capacity := Nat.mod_lt _ hc
  have hinj : ∀ j, j < b.size →
      (b.start + j) % b.capacity ≠ (b.start + b.size) % b.capacity := by
    intro j hj heq
    rw [mod_two_cases hc (by omega), mod_two_cases hc (by omega)] at heq
    split_ifs at heq <;> omega
  have hgetD : ∀ j, j < b.size →
      ((b.items.set (add_mod b.start b.size b.capacity) (some x)).getD
        ((b.start + j) % b.capacity) none) =
        b.items.getD ((b.start + j) % b.capacity) none := by
    intro j hj
    rw [hidx]
    exact getD_set_ne (fun heq => hinj j hj heq.symm) _
  have hnew : ((b.items.set (add_mod b.start b.size b.capacity) (some x)).getD
      ((b.start + b.size) % b.capacity) none) = some x := by
    rw [hidx]
    exact getD_set_self (by rw [hitems_len]; exact hmod_lt) _
  have hWF2 : WF (⟨b.size + 1, b.start,
      b.items.set (add_mod b.start b.size b.capacity) (some x)⟩ : CircularBuffer α) := by
    refine ⟨?_, ?_, ?_, ?_, ?_⟩
    · rw [hcap']
      show b.size + 1 ≤ b.capacity
      omega
    · rw [hcap']
      intro h0
      omega
    · rw [hcap']
      intro _
      show b.start < b.capacity
      exact hstart
    · rw [hcap']
      exact hcm
    · rw [hcap']
      intro j hj
      have hj' : j < b.size + 1 := hj
      show ((b.items.set (add_mod b.start b.size b.capacity) (some x)).getD
        ((b.start + j) % b.capacity) none).isSome
      rcases Nat.lt_or_ge j b.size with hlt | hge
      · rw [hgetD j hlt]
        exact hsome j hlt
      · have hj2 : j = b.size := by omega
        subst hj2
        rw [hnew]
        rfl
  have hlog2 : logicalList (⟨b.size + 1, b.start,
      b.items.set (add_mod b.start b.size b.capacity) (some x)⟩ : CircularBuffer α) =
      logicalList b ++ [some x] := by
    apply List.ext_getElem
    · simp [logicalList_length]
    · intro n h1 h2
      have h1' : n < b.size + 1 := by
        have h3 := h1
        rw [logicalList_length] at h3
        exact h3
      rw [← List.getD_eq_getElem _ none h1, ← List.getD_eq_getElem _ none h2]
      rw [logicalList_getD (b := ⟨b.size + 1, b.start,
        b.items.set (add_mod b.start b.size b.capacity) (some x)⟩) h1']
      rw [hcap']
      rcases Nat.lt_or_ge n b.size with hlt | hge
      · rw [hgetD n hlt]
        rw [List.getD_append _ _ _ _ (by rw [logicalList_length]; exact hlt)]
        rw [logicalList_getD hlt]
      · have hn2 : n = b.size := by omega
        subst hn2
        rw [hnew]
        rw [List.getD_append_right _ _ _ _ (by rw [logicalList_length])]
        simp [logicalList_length]
  rw [hpush]
  exact ⟨rfl, hWF2, hcap', rfl, rfl, hlog2⟩

/-- `push_back` on a full buffer: returns the displaced oldest element,
advances `start`, keeps the size. -/
lemma push_back_full {b : CircularBuffer α} (h : WF b) (x : α)
    (hc : 0 < b.capacity) (hf : b.capacity ≤ b.size) :
    (push_back b x).1 = (logicalList b).getD 0 none ∧
    WF (push_back b x).2 ∧
    (push_back b x).2.capacity = b.capacity ∧
    (push_back b x).2.size = b.size ∧
    logicalList (push_back b x).2 = (logicalList b).drop 1 ++ [some x] := by
  have hfull := full_all_isSome h hc hf
  obtain ⟨hsz, -, hst, hcm, hsome⟩ := h
  have hstart : b.start < b.capacity := hst hc
  have hsize : b.size = b.capacity := by omega
  have hitems_len : b.items.length = b.capacity := rfl
  have hadd1 : add_mod b.start 1 b.capacity = (b.start + 1) % b.capacity :=
    add_mod_eq hc hcm (by omega) (by omega)
  have hpush : push_back b x = (b.items.getD b.start none,
      ⟨b.size, add_mod b.start 1 b.capacity, b.items.set b.start (some x)⟩) := by
    simp only [push_back, if_neg (show ¬ b.capacity = 0 by omega), if_pos hf]
  have hcap' : (⟨b.size, add_mod b.start 1 b.capacity, b.items.set b.start (some x)⟩ :
      CircularBuffer α).capacity = b.capacity := by
    show (b.items.set _ _).length = b.capacity
    rw [List.length_set]
    exact hitems_len
  have hfst : b.items.getD b.start none = (logicalList b).getD 0 none := by
    rw [logicalList_getD (show 0 < b.size by omega), Nat.add_zero,
      Nat.mod_eq_of_lt hstart]
  have hidx2 : ∀ j : ℕ, ((b.start + 1) % b.capacity + j) % b.capacity =
      (b.start + 1 + j) % b.capacity := fun j => Nat.mod_add_mod _ _ _
  have hne_start : ∀ j, j + 1 < b.size →
      (b.start + 1 + j) % b.capacity ≠ b.start := by
    intro j hj heq
    rw [Nat.add_assoc] at heq
    have := (add_mod_eq_self_iff hstart (show 1 + j < b.capacity by omega)).mp heq
    omega
  have heq_start : (b.start + 1 + (b.size - 1)) % b.capacity = b.start := by
    have h9 : b.start + 1 + (b.size - 1) = b.start + b.capacity := by omega
    rw [h9, Nat.add_mod_right, Nat.mod_eq_of_lt hstart]
  have hWF2 : WF (⟨b.size, add_mod b.start 1 b.capacity,
      b.items.set b.start (some x)⟩ : CircularBuffer α) := by
    refine ⟨?_, ?_, ?_, ?_, ?_⟩
    · rw [hcap']
      exact hsz
    · rw [hcap']
      intro h0
      omega
    · rw [hcap']
      intro _
      show add_mod b.start 1 b.capacity < b.capacity
      rw [hadd1]
      exact Nat.mod_lt _ hc
    · rw [hcap']
      exact hcm
    · rw [hcap']
      intro j hj
      show ((b.items.set b.start (some x)).getD
        ((add_mod b.start 1 b.capacity + j) % b.capacity) none).isSome
      rw [hadd1, hidx2]
      by_cases hcase : (b.start + 1 + j) % b.capacity = b.start
      · rw [hcase, getD_set_self (by rw [hitems_len]; exact hstart) _]
        rfl
      · rw [getD_set_ne (fun heq => hcase heq.symm) _]
        exact hfull _ (Nat.mod_lt _ hc)
  have hlog2 : logicalList (⟨b.size, add_mod b.start 1 b.capacity,
      b.items.set b.start (some x)⟩ : CircularBuffer α) =
      (logicalList b).drop 1 ++ [some x] := by
    apply List.ext_getElem
    · simp only [logicalList_length, List.length_append, List.length_drop,
        List.length_singleton]
      show b.size = b.size - 1 + 1
      omega
    · intro n h1 h2
      have h1' : n < b.size := by
        have h3 := h1
        rw [logicalList_length] at h3
        exact h3
      rw [← List.getD_eq_getElem _ none h1, ← List.getD_eq_getElem _ none h2]
      rw [logicalList_getD (b := ⟨b.size, add_mod b.start 1 b.capacity,
        b.items.set b.start (some x)⟩) h1']
      rw [hcap']
      show (b.items.set b.start (some x)).getD
        ((add_mod b.start 1 b.capacity + n) % b.capacity) none = _
      rw [hadd1, hidx2]
      have hdrop_len : ((logicalList b).drop 1).length = b.size - 1 := by
        rw [List.length_drop, logicalList_length]
      rcases Nat.lt_or_ge (n + 1) b.size with hlt | hge
      · rw [getD_set_ne (fun heq => hne_start n hlt heq.symm) _]
        rw [List.getD_append _ _ _ _ (by rw [hdrop_len]; omega)]
        conv_rhs => rw [List.getD_eq_getElem?_getD, List.getElem?_drop,
          ← List.getD_eq_getElem?_getD]
        rw [logicalList_getD (show 1 + n < b.size by omega)]
        rw [show b.start + 1 + n = b.start + (1 + n) from by omega]
      · have hn : n = b.size - 1 := by omega
        subst hn
        rw [heq_start, getD_set_self (by rw [hitems_len]; exact hstart) _]
        rw [List.getD_append_right _ _ _ _ (by rw [hdrop_len])]
        rw [hdrop_len]
        simp
  rw [hpush]
  exact ⟨hfst, hWF2, hcap', rfl, hlog2⟩

/-- Repeated `push_back`, discarding the returned evictions (as
`add_samples` does). -/
def push_all (b : CircularBuffer α) (l : List α) : CircularBuffer α :=
  l.foldl (fun acc x => (push_back acc x).2) b

/-- The sliding-window law of repeated pushes. -/
lemma push_all_logical {b : CircularBuffer α} (l : List α) (h : WF b)
    (hc : 0 < b.capacity) :
    WF (push_all b l) ∧ (push_all b l).capacity = b.capacity ∧
    logicalList (push_all b l) =
      (logicalList b ++ l.map some).drop (b.size + l.length - b.capacity) := by
  induction l generalizing b with
  | nil =>
    have hsz := h.1
    refine ⟨h, rfl, ?_⟩
    simp only [push_all, List.foldl_nil, List.map_nil, List.append_nil,
      List.length_nil]
    rw [show b.size + 0 - b.capacity = 0 from by omega, List.drop_zero]
  | cons x t ih =>
    have hsz := h.1
    rcases Nat.lt_or_ge b.size b.capacity with hlt | hge
    · obtain ⟨-, hwf2, hcap2, hsize2, -, hlog2⟩ := push_back_not_full h x hlt
      have hrec := ih hwf2 (by rw [hcap2]; exact hc)
      have hstep : push_all b (x :: t) = push_all (push_back b x).2 t := rfl
      rw [hstep]
      refine ⟨hrec.1, by rw [hrec.2.1, hcap2], ?_⟩
      rw [hrec.2.2, hlog2, hcap2, hsize2]
      rw [List.append_assoc]
      rw [show (x :: t).map some = [some x] ++ t.map some from by simp]
      rw [show b.size + 1 + t.length = b.size + (x :: t).length from by
            simp only [List.length_cons]
            omega]
    · have hf : b.capacity ≤ b.size := hge
      have hsize_eq : b.size = b.capacity := by omega
      obtain ⟨-, hwf2, hcap2, hsize2, hlog2⟩ := push_back_full h x hc hf
      have hrec := ih hwf2 (by rw [hcap2]; exact hc)
      have hstep : push_all b (x :: t) = push_all (push_back b x).2 t := rfl
      rw [hstep]
      refine ⟨hrec.1, by rw [hrec.2.1, hcap2], ?_⟩
      rw [hrec.2.2, hlog2, hcap2, hsize2]
      have hloglen : (logicalList b).length = b.capacity := by
        rw [logicalList_length, hsize_eq]
      rw [show b.size + t.length - b.capacity = t.length from by omega]
      rw [List.append_assoc ((logicalList b).drop 1) [some x] (t.map some)]
      rw [← List.drop_append_of_le_length (show 1 ≤ (logicalList b).length by omega)]
      rw [List.drop_drop]
      rw [show (x :: t).map some = [some x] ++ t.map some from by simp]
      rw [show b.size + (x :: t).length - b.capacity = 1 + t.length from by
            simp only [List.length_cons]
            omega]

/-- C4: starting from `new C` with `C > 0`, pushing `C + k` items (`k > 0`)
leaves exactly the last `C` pushed items, in push order; a push on a full
buffer returns the displaced oldest item, a push on a non-full buffer
returns `None`, and a push on a capacity-0 buffer stores nothing and
returns the pushed item. -/
theorem c4_push_back_overwrite {α : Type _} (C k : ℕ) (hC : 0 < C)
    (hCm : C ≤ usizeMax) (hk : 0 < k) (L : List α) (hlen : L.length = C + k) :
    logicalList (push_all (new C) L) = (L.drop k).map some ∧
    (push_all (new C) L).size = C ∧
    (∀ (b : CircularBuffer α) (x : α), WF b → b.capacity ≤ b.size → 0 < b.capacity →
      (push_back b x).1 = (logicalList b).getD 0 none ∧
        ((logicalList b).getD 0 none).isSome) ∧
    (∀ (b : CircularBuffer α) (x : α), WF b → b.size < b.capacity →
      (push_back b x).1 = none) ∧
    (∀ (b : CircularBuffer α) (x : α), b.capacity = 0 → push_back b x = (some x, b)) := by
  have hwf0 : WF (new (α := α) C) := WF_new C hCm
  have hcap0 : (new (α := α) C).capacity = C := by
    show (List.replicate C (none : Option α)).length = C
    rw [List.length_replicate]
  have h := push_all_logical L hwf0 (by rw [hcap0]; exact hC)
  have hlog : logicalList (push_all (new C) L) = (L.drop k).map some := by
    rw [h.2.2, logicalList_new, List.nil_append]
    rw [show (new (α := α) C).size + L.length - (new (α := α) C).capacity = k from by
      show 0 + L.length - (List.replicate C (none : Option α)).length = k
      rw [List.length_replicate]
      omega]
    rw [List.map_drop]
  refine ⟨hlog, ?_, ?_, ?_, ?_⟩
  · have := congrArg List.length hlog
    rw [logicalList_length, List.length_map, List.length_drop, hlen] at this
    omega
  · intro b x hwf hfull hcpos
    refine ⟨(push_back_full hwf x hcpos hfull).1, ?_⟩
    have h0 : (logicalList b).getD 0 none =
        b.items.getD ((b.start + 0) % b.capacity) none :=
      logicalList_getD (by omega)
    rw [h0]
    exact hwf.2.2.2.2 0 (by omega)
  · intro b x hwf hnf
    exact (push_back_not_full hwf x hnf).1
  · intro b x hzero
    exact push_back_zero_cap hzero x

/-- Witness for C4 at `C = 2`, `k = 1`, `L = [1, 2, 3]`. -/
theorem c4_push_back_overwrite_witness :
    logicalList (push_all (new (α := ℕ) 2) [1, 2, 3]) = ([1, 2, 3].drop 1).map some :=
  (c4_push_back_overwrite 2 1 (by norm_num)
    (by norm_num [usizeMax, usizeSize]) (by norm_num) [1, 2, 3] (by norm_num)).1

lemma getD_rotate {l : List (Option α)} {n j : ℕ} (hj : j < l.length) :
    (l.rotate n).getD j none = l.getD ((j + n) % l.length) none := by
  rw [List.getD_eq_getElem (l.rotate n) none (by rw [List.length_rotate]; exact hj)]
  rw [List.getElem_rotate]
  rw [List.getD_eq_getElem _ none (Nat.mod_lt _ (by omega))]

/-- C5 amended: `make_contiguous` returns the logical sequence as one
physically contiguous slice starting at the (possibly nonzero) logical
start, preserving element order and identity; it physically rotates the
storage and resets the start offset to 0 only when the logical window
wraps, and leaves the buffer completely untouched when the window is
already contiguous. -/
theorem c5_make_contiguous (b : CircularBuffer α) (h : WF b) (hs : 0 < b.size) :
    (make_contiguous b).1 = logicalList b ∧
    WF (make_contiguous b).2 ∧
    (make_contiguous b).2.size = b.size ∧
    (make_contiguous b).2.capacity = b.capacity ∧
    logicalList (make_contiguous b).2 = logicalList b ∧
    ((make_contiguous b).2.items.drop (make_contiguous b).2.start).take b.size =
      logicalList b ∧
    (¬ b.start < add_mod b.start b.size b.capacity →
      (make_contiguous b).2.start = 0 ∧
      (make_contiguous b).2.items.take b.size = logicalList b) ∧
    (b.start < add_mod b.start b.size b.capacity → (make_contiguous b).2 = b) := by
  obtain ⟨hsz, -, hst, hcm, hsome⟩ := h
  have hc : 0 < b.capacity := by omega
  have hstart : b.start < b.capacity := hst hc
  have hitems_len : b.items.length = b.capacity := rfl
  have he : add_mod b.start b.size b.capacity = (b.start + b.size) % b.capacity :=
    add_mod_eq hc hcm (by omega) (by omega)
  have hbranch : ¬ (b.capacity = 0 ∨ b.size = 0) := by omega
  by_cases hw : b.start < add_mod b.start b.size b.capacity
  · -- already contiguous: nothing moves
    have hnowrap : b.start + b.size < b.capacity := by
      by_contra hcon
      push_neg at hcon
      rw [he, mod_two_cases hc (by omega), if_neg (by omega)] at hw
      omega
    have he2 : add_mod b.start b.size b.capacity = b.start + b.size := by
      rw [he, Nat.mod_eq_of_lt (by omega)]
    have hmk : make_contiguous b =
        ((b.items.drop b.start).take (add_mod b.start b.size b.capacity - b.start), b) := by
      simp only [make_contiguous, if_neg hbranch, if_pos hw]
    have hslice : (b.items.drop b.start).take
        (add_mod b.start b.size b.capacity - b.start) = logicalList b := by
      rw [he2, show b.start + b.size - b.start = b.size from by omega]
      apply List.ext_getElem
      · simp only [List.length_take, List.length_drop, hitems_len, logicalList_length]
        omega
      · intro n h1 h2
        have h1' : n < b.size := by
          simp only [List.length_take, List.length_drop] at h1
          omega
        rw [← List.getD_eq_getElem _ none h1, ← List.getD_eq_getElem _ none h2]
        rw [logicalList_getD h1']
        rw [List.getD_eq_getElem?_getD, List.getElem?_take, if_pos h1',
          List.getElem?_drop, ← List.getD_eq_getElem?_getD]
        rw [Nat.mod_eq_of_lt (by omega)]
    have hslice2 : (b.items.drop b.start).take b.size = logicalList b := by
      have h4 := hslice
      rw [he2, show b.start + b.size - b.start = b.size from by omega] at h4
      exact h4
    rw [hmk]
    exact ⟨hslice, ⟨hsz, fun h0 => absurd h0 (show b.capacity ≠ 0 by omega), hst, hcm,
      hsome⟩, rfl, rfl, rfl, hslice2, fun hcon => absurd hw hcon, fun _ => rfl⟩
  · -- wrapped: rotate left by `start` and reset `start` to 0
    have hmk : make_contiguous b = ((b.items.rotate b.start).take b.size,
        ⟨b.size, 0, b.items.rotate b.start⟩) := by
      simp only [make_contiguous, if_neg hbranch, if_neg hw]
    have hrot_len : (b.items.rotate b.start).length = b.capacity := by
      rw [List.length_rotate]
      exact hitems_len
    have hrot_getD : ∀ j, j < b.size →
        (b.items.rotate b.start).getD j none =
          b.items.getD ((b.start + j) % b.capacity) none := by
      intro j hj
      rw [getD_rotate (by rw [hitems_len]; omega)]
      rw [hitems_len, Nat.add_comm j b.start]
    have hslice : (b.items.rotate b.start).take b.size = logicalList b := by
      apply List.ext_getElem
      · simp only [List.length_take, hrot_len, logicalList_length]
        omega
      · intro n h1 h2
        have h1' : n < b.size := by
          simp only [List.length_take] at h1
          omega
        rw [← List.getD_eq_getElem _ none h1, ← List.getD_eq_getElem _ none h2]
        rw [logicalList_getD h1']
        rw [List.getD_eq_getElem?_getD, List.getElem?_take, if_pos h1',
          ← List.getD_eq_getElem?_getD]
        exact hrot_getD n h1'
    have hcap2 : (⟨b.size, 0, b.items.rotate b.start⟩ : CircularBuffer α).capacity =
        b.capacity := by
      show (b.items.rotate b.start).length = b.capacity
      exact hrot_len
    have hlog2 : logicalList (⟨b.size, 0, b.items.rotate b.start⟩ : CircularBuffer α) =
        logicalList b := by
      apply List.ext_getElem
      · simp only [logicalList_length]
      · intro n h1 h2
        have h1' : n < b.size := by
          have h3 := h1
          rw [logicalList_length] at h3
          exact h3
        rw [← List.getD_eq_getElem _ none h1, ← List.getD_eq_getElem _ none h2]
        rw [logicalList_getD (b := ⟨b.size, 0, b.items.rotate b.start⟩) h1']
        rw [logicalList_getD h1', hcap2]
        show (b.items.rotate b.start).getD ((0 + n) % b.capacity) none = _
        rw [Nat.zero_add, Nat.mod_eq_of_lt (by omega)]
        exact hrot_getD n h1'
    have hWF2 : WF (⟨b.size, 0, b.items.rotate b.start⟩ : CircularBuffer α) := by
      refine ⟨?_, ?_, ?_, ?_, ?_⟩
      · rw [hcap2]
        exact hsz
      · intro _
        rfl
      · intro _
        rw [hcap2]
        exact hc
      · rw [hcap2]
        exact hcm
      · rw [hcap2]
        intro j hj
        have hj' : j < b.size := hj
        show ((b.items.rotate b.start).getD ((0 + j) % b.capacity) none).isSome
        rw [Nat.zero_add, Nat.mod_eq_of_lt (by omega)]
        rw [hrot_getD j hj']
        exact hsome j hj'
    rw [hmk]
    refine ⟨hslice, hWF2, rfl, hcap2, hlog2, ?_, fun _ => ⟨rfl, hslice⟩,
      fun hcon => absurd hcon hw⟩
    show ((b.items.rotate b.start).drop 0).take b.size = logicalList b
    rw [List.drop_zero]
    exact hslice

/-- Witness for C5 amended at the wrapped buffer `new 2; push 1,2,3`. -/
theorem c5_make_contiguous_witness :
    (make_contiguous (push_all (new (α := ℕ) 2) [1, 2, 3])).1 =
      logicalList (push_all (new (α := ℕ) 2) [1, 2, 3]) ∧
    (make_contiguous (push_all (new (α := ℕ) 2) [1, 2, 3])).2.start = 0 :=
  have hwf : WF (push_all (new (α := ℕ) 2) [1, 2, 3]) :=
    (push_all_logical [1, 2, 3]
      (WF_new 2 (by norm_num [usizeMax, usizeSize])) (by decide)).1
  ⟨(c5_make_contiguous (push_all (new (α := ℕ) 2) [1, 2, 3]) hwf (by decide)).1,
   ((c5_make_contiguous (push_all (new (α := ℕ) 2) [1, 2, 3]) hwf
      (by decide)).2.2.2.2.2.2.1 (by decide)).1⟩

/-- C5 counterexample: the buffer reached by `new 4; push 10; push 20;
push 30; pop_front` has `start = 1` and a contiguous (non-wrapped) window;
`make_contiguous` leaves it untouched, so afterwards the logical sequence
does NOT occupy physical indices `[0, len)` and the start offset is NOT
reset to 0, contradicting the claim. -/
theorem c5_make_contiguous_counterexample :
    (make_contiguous (pop_front ((push_all (new (α := ℕ) 4) [10, 20, 30]))).2).2.start = 1 ∧
    ¬ ((make_contiguous (pop_front ((push_all (new (α := ℕ) 4) [10, 20, 30]))).2).2.items.take
        (make_contiguous (pop_front ((push_all (new (α := ℕ) 4) [10, 20, 30]))).2).2.size =
      logicalList (make_contiguous (pop_front ((push_all (new (α := ℕ) 4) [10, 20, 30]))).2).2) := by
  constructor <;> decide

end CircularBuffer

/-! ### Bit reversal and `FFT::rearrange` (src/fft.rs:88-107) -/

/-- The `k`-bit reversal of `n` (low bit becomes top bit). -/
def bitrev : ℕ → ℕ → ℕ
  | 0, _ => 0
  | k + 1, n => (if n % 2 = 1 then 2 ^ k else 0) + bitrev k (n / 2)

lemma bitrev_lt (k n : ℕ) : bitrev k n < 2 ^ k := by
  induction k generalizing n with
  | zero => simp [bitrev]
  | succ k ih =>
    show (if n % 2 = 1 then 2 ^ k else 0) + bitrev k (n / 2) < 2 ^ (k + 1)
    have := ih (n / 2)
    rw [pow_succ]
    split <;> omega

lemma testBit_cond_pow_add {k j : ℕ} (hj : j < k) {b : Bool} {r : ℕ} (hr : r < 2 ^ k) :
    ((if b then 2 ^ k else 0) + r).testBit j = r.testBit j := by
  cases b
  · simp
  · simp only [if_pos]
    rw [Nat.testBit_to_div_mod, Nat.testBit_to_div_mod]
    have hsplit : (2 ^ k + r) / 2 ^ j = 2 ^ (k - j) + r / 2 ^ j := by
      have h1 : 2 ^ k = 2 ^ j * 2 ^ (k - j) := by
        rw [← pow_add]
        congr 1
        omega
      rw [h1, Nat.mul_add_div (Nat.pos_pow_of_pos j (by norm_num))]
    rw [hsplit]
    have heven : 2 ^ (k - j) % 2 = 0 := by
      have h2 : k - j = (k - j - 1) + 1 := by omega
      rw [h2, pow_succ, Nat.mul_mod_left]
    rcases Nat.mod_two_eq_zero_or_one (r / 2 ^ j) with hx | hx <;>
      rw [Nat.add_mod, heven, hx] <;> simp

lemma testBit_cond_pow_top {k : ℕ} {b : Bool} {r : ℕ} (hr : r < 2 ^ k) :
    ((if b then 2 ^ k else 0) + r).testBit k = b := by
  cases b
  · simp only [if_neg Bool.false_ne_true, Nat.zero_add]
    exact Nat.testBit_lt_two_pow hr
  · simp only [if_pos]
    rw [Nat.testBit_to_div_mod]
    have h1 : (2 ^ k + r) / 2 ^ k = 1 := by
      rw [show 2 ^ k + r = 2 ^ k * 1 + r from by omega,
        Nat.mul_add_div (Nat.pos_pow_of_pos k (by norm_num)),
        Nat.div_eq_of_lt hr]
    rw [h1]
    decide

/-- Complete bit-level description of `(if b then 2^k else 0) + r` for
`r < 2^k`. -/
lemma testBit_cond_pow_add_all {k : ℕ} {b : Bool} {r : ℕ} (hr : r < 2 ^ k) (i : ℕ) :
    ((if b then 2 ^ k else 0) + r).testBit i =
      if i < k then r.testBit i else if i = k then b else false := by
  rcases Nat.lt_trichotomy i k with h | h | h
  · rw [testBit_cond_pow_add h hr]
    simp [h]
  · subst h
    rw [testBit_cond_pow_top hr]
    simp
  · have hlt : (if b then 2 ^ k else 0) + r < 2 ^ i := by
      have h1 : (2 : ℕ) ^ (k + 1) ≤ 2 ^ i := Nat.pow_le_pow_right (by norm_num) (by omega)
      have h2 : (2 : ℕ) ^ (k + 1) = 2 ^ k + 2 ^ k := by
        rw [pow_succ]
        ring
      split <;> omega
    rw [Nat.testBit_lt_two_pow hlt]
    rw [if_neg (show ¬ i < k from by omega), if_neg (show i ≠ k from by omega)]

lemma testBit_two_pow_all (k i : ℕ) :
    ((2 ^ k : ℕ)).testBit i = decide (i = k) := by
  rw [Nat.testBit_two_pow]
  by_cases h : k = i
  · subst h
    simp
  · simp [h, Ne.symm h]

lemma testBit_bitrev {k : ℕ} : ∀ {n j : ℕ}, j < k →
    (bitrev k n).testBit j = n.testBit (k - 1 - j) := by
  induction k with
  | zero => omega
  | succ k ih =>
    intro n j hj
    show ((if n % 2 = 1 then 2 ^ k else 0) + bitrev k (n / 2)).testBit j = _
    have hr := bitrev_lt k (n / 2)
    have hb : (if n % 2 = 1 then 2 ^ k else 0) =
        (if decide (n % 2 = 1) then 2 ^ k else 0) := by
      by_cases h : n % 2 = 1 <;> simp [h]
    rw [hb]
    rcases Nat.lt_or_ge j k with hlt | hge
    · rw [testBit_cond_pow_add hlt hr, ih hlt, Nat.testBit_div_two]
      congr 1
      omega
    · have hjk : j = k := by omega
      subst hjk
      rw [testBit_cond_pow_top hr]
      have hz : j + 1 - 1 - j = 0 := by omega
      rw [hz, Nat.testBit_zero]

lemma bitrev_bitrev {k n : ℕ} (hn : n < 2 ^ k) : bitrev k (bitrev k n) = n := by
  apply Nat.eq_of_testBit_eq
  intro i
  rcases Nat.lt_or_ge i k with hlt | hge
  · rw [testBit_bitrev hlt, testBit_bitrev (show k - 1 - i < k from by omega)]
    congr 1
    omega
  · have h1 : bitrev k (bitrev k n) < 2 ^ i :=
      lt_of_lt_of_le (bitrev_lt _ _) (Nat.pow_le_pow_right (by norm_num) hge)
    have h2 : n < 2 ^ i := lt_of_lt_of_le hn (Nat.pow_le_pow_right (by norm_num) hge)
    rw [Nat.testBit_lt_two_pow h1, Nat.testBit_lt_two_pow h2]

lemma testBit_cond_pow_all {k : ℕ} {b : Bool} (i : ℕ) :
    ((if b then 2 ^ k else 0) : ℕ).testBit i =
      if i < k then false else if i = k then b else false := by
  have h0 : ((if b then 2 ^ k else 0) : ℕ) = (if b then 2 ^ k else 0) + 0 := by omega
  rw [h0, testBit_cond_pow_add_all (Nat.pos_pow_of_pos k (by norm_num)) i]
  split
  · exact Nat.zero_testBit i
  · rfl

lemma land_single_bit {k r : ℕ} (hr : r < 2 ^ k) {b : Bool} :
    ((if b then 2 ^ k else 0) + r) &&& 2 ^ k = if b then 2 ^ k else 0 := by
  apply Nat.eq_of_testBit_eq
  intro i
  rw [Nat.testBit_land, testBit_cond_pow_add_all hr, testBit_two_pow_all,
    testBit_cond_pow_all]
  by_cases h1 : i < k
  · rw [if_pos h1, if_pos h1]
    simp [show i ≠ k from by omega]
  · rw [if_neg h1, if_neg h1]
    by_cases h2 : i = k <;> simp [h2]

lemma testBit_add_mul_pow {m x y : ℕ} (hx : x < 2 ^ m) (i : ℕ) :
    (x + 2 ^ m * y).testBit i = if i < m then x.testBit i else y.testBit (i - m) := by
  rcases Nat.lt_or_ge i m with h | h
  · rw [if_pos h, Nat.testBit_to_div_mod, Nat.testBit_to_div_mod]
    have h1 : (2 : ℕ) ^ m = 2 ^ i * 2 ^ (m - i) := by
      rw [← pow_add]
      congr 1
      omega
    have h2 : x + 2 ^ m * y = 2 ^ i * (2 ^ (m - i) * y) + x := by
      rw [h1]
      ring
    rw [h2, Nat.mul_add_div (Nat.pos_pow_of_pos i (by norm_num))]
    have h3 : (2 ^ (m - i) * y) % 2 = 0 := by
      have h4 : m - i = (m - i - 1) + 1 := by omega
      rw [h4, pow_succ,
        show 2 ^ (m - i - 1) * 2 * y = 2 * (2 ^ (m - i - 1) * y) from by ring,
        Nat.mul_mod_right]
    rcases Nat.mod_two_eq_zero_or_one (x / 2 ^ i) with hx2 | hx2 <;>
      rw [Nat.add_comm, Nat.add_mod, h3, hx2] <;> simp
  · rw [if_neg (by omega), Nat.testBit_to_div_mod, Nat.testBit_to_div_mod]
    have h1 : (2 : ℕ) ^ i = 2 ^ m * 2 ^ (i - m) := by
      rw [← pow_add]
      congr 1
      omega
    have h2 : (x + 2 ^ m * y) / 2 ^ i = y / 2 ^ (i - m) := by
      rw [h1, ← Nat.div_div_eq_div_mul]
      congr 1
      rw [show x + 2 ^ m * y = 2 ^ m * y + x from by ring,
        Nat.mul_add_div (Nat.pos_pow_of_pos m (by norm_num)),
        Nat.div_eq_of_lt hx, Nat.add_zero]
    rw [h2]

/-- Bit-level description of the 64-bit complement of a single bit. -/
lemma testBit_usize_not_pow {k : ℕ} (hk : k < 64) (i : ℕ) :
    (usize_not (2 ^ k)).testBit i = (decide (i < 64) && !(decide (i = k))) := by
  have hdecomp : usize_not (2 ^ k) = (2 ^ k - 1) + 2 ^ (k + 1) * (2 ^ (63 - k) - 1) := by
    have h1 : (2 : ℕ) ^ 64 = 2 ^ (k + 1) * 2 ^ (63 - k) := by
      rw [← pow_add]
      congr 1
      omega
    have h2 : (2 : ℕ) ^ (k + 1) * 2 ^ (63 - k) =
        2 ^ (k + 1) * (2 ^ (63 - k) - 1) + 2 ^ (k + 1) := by
      rw [← Nat.mul_succ]
      congr 1
      have : (1 : ℕ) ≤ 2 ^ (63 - k) := Nat.one_le_two_pow
      omega
    have h3 : (2 : ℕ) ^ (k + 1) = 2 * 2 ^ k := by
      rw [pow_succ]
      ring
    have h4 : (1 : ℕ) ≤ 2 ^ k := Nat.one_le_two_pow
    show usizeMax - 2 ^ k = _
    rw [show usizeMax = 2 ^ 64 - 1 from rfl]
    omega
  rw [hdecomp, testBit_add_mul_pow (by have := Nat.one_le_two_pow (n := k); omega) i]
  rcases Nat.lt_trichotomy i k with h | h | h
  · rw [if_pos (by omega), Nat.testBit_two_pow_sub_one]
    simp [h, show i ≠ k from by omega, show i < 64 from by omega]
  · subst h
    rw [if_pos (by omega), Nat.testBit_two_pow_sub_one]
    simp [hk]
  · rw [if_neg (by omega), Nat.testBit_two_pow_sub_one]
    by_cases h2 : i < 64
    · simp [show i - (k + 1) < 63 - k from by omega, h2, show i ≠ k from by omega]
    · simp [show ¬ (i - (k + 1) < 63 - k) from by omega, h2]

/-- `(2^k + r) & !(2^k) = r` for `r < 2^k` and `k` a valid bit index. -/
lemma land_not_single_bit {k r : ℕ} (hk : k < 64) (hr : r < 2 ^ k) :
    (2 ^ k + r) &&& usize_not (2 ^ k) = r := by
  apply Nat.eq_of_testBit_eq
  intro i
  rw [Nat.testBit_land, testBit_usize_not_pow hk]
  have hcond := testBit_cond_pow_add_all (b := true) hr i
  simp only [if_pos] at hcond
  rw [hcond]
  by_cases h1 : i < k
  · simp [h1, show i < 64 from by omega, show i ≠ k from by omega]
  · have hrsmall : r.testBit i = false := Nat.testBit_lt_two_pow
      (lt_of_lt_of_le hr (Nat.pow_le_pow_right (by norm_num) (by omega)))
    by_cases h2 : i = k
    · subst h2
      simp [hrsmall]
    · simp [h1, h2, hrsmall]

lemma lor_single_bit {k r : ℕ} (hr : r < 2 ^ k) : r ||| 2 ^ k = 2 ^ k + r := by
  apply Nat.eq_of_testBit_eq
  intro i
  rw [Nat.testBit_lor]
  have hcond := testBit_cond_pow_add_all (b := true) hr i
  simp only [if_pos] at hcond
  rw [hcond, testBit_two_pow_all]
  by_cases h1 : i < k
  · rw [if_pos h1]
    simp [show i ≠ k from by omega]
  · have hrsmall : r.testBit i = false := Nat.testBit_lt_two_pow
      (lt_of_lt_of_le hr (Nat.pow_le_pow_right (by norm_num) (by omega)))
    rw [if_neg h1]
    by_cases h2 : i = k <;> simp [h2, hrsmall]

/-- Models the inner `loop` of `FFT::rearrange` (src/fft.rs:97-105):
`mask >>= 1; if target & mask != 0 { target &= !mask } else { break }`,
then `target |= mask`. The fuel argument only forces termination; any fuel
at least the bit length of `mask` gives the loop's exact behaviour. -/
def walkUpdate : ℕ → ℕ → ℕ → ℕ
  | 0, t, mask => t ||| (mask >>> 1)
  | fuel + 1, t, mask =>
    if t &&& (mask >>> 1) ≠ 0 then
      walkUpdate fuel (t &&& usize_not (mask >>> 1)) (mask >>> 1)
    else t ||| (mask >>> 1)

lemma bitrev_zero_eq (k : ℕ) : bitrev k 0 = 0 := by
  induction k with
  | zero => rfl
  | succ k ih =>
    show (if 0 % 2 = 1 then 2 ^ k else 0) + bitrev k (0 / 2) = 0
    simpa using ih

lemma pow_succ_shiftRight (k : ℕ) : (2 ^ (k + 1)) >>> 1 = 2 ^ k := by
  rw [Nat.shiftRight_one, pow_succ, Nat.mul_div_cancel _ (by norm_num)]

/-- The mask walk turns the `k`-bit reversal of `p` into the `k`-bit
reversal of `p + 1` (wrapping at `2^k`). -/
lemma walkUpdate_bitrev : ∀ (k : ℕ) {fuel p : ℕ}, k ≤ 64 → k ≤ fuel → p < 2 ^ k →
    walkUpdate fuel (bitrev k p) (2 ^ k) = bitrev k ((p + 1) % 2 ^ k) := by
  intro k
  induction k with
  | zero =>
    intro fuel p _ _ hp
    have hp0 : p = 0 := by omega
    subst hp0
    have hm : (2 ^ 0 : ℕ) >>> 1 = 0 := by decide
    have hb : bitrev 0 0 = 0 := rfl
    have hr : bitrev 0 ((0 + 1) % 2 ^ 0) = 0 := rfl
    rw [hb, hr]
    cases fuel with
    | zero =>
      show (0 : ℕ) ||| ((2 ^ 0) >>> 1) = 0
      rw [hm]
      rfl
    | succ f =>
      show (if (0 : ℕ) &&& ((2 ^ 0) >>> 1) ≠ 0 then _ else (0 : ℕ) ||| ((2 ^ 0) >>> 1)) = 0
      rw [hm]
      simp
  | succ k ih =>
    intro fuel p hk64 hfuel hp
    obtain ⟨f, rfl⟩ : ∃ f, fuel = f + 1 := ⟨fuel - 1, by omega⟩
    have hkf : k ≤ f := by omega
    have hk63 : k < 64 := by omega
    have hr : bitrev k (p / 2) < 2 ^ k := bitrev_lt _ _
    have hp2 : p / 2 < 2 ^ k := by
      have h1 : 2 ^ (k + 1) = 2 ^ k * 2 := by rw [pow_succ]
      omega
    show (if bitrev (k + 1) p &&& ((2 ^ (k + 1)) >>> 1) ≠ 0 then
        walkUpdate f (bitrev (k + 1) p &&& usize_not ((2 ^ (k + 1)) >>> 1))
          ((2 ^ (k + 1)) >>> 1)
      else bitrev (k + 1) p ||| ((2 ^ (k + 1)) >>> 1)) = bitrev (k + 1) ((p + 1) % 2 ^ (k + 1))
    rw [pow_succ_shiftRight]
    have hbit : bitrev (k + 1) p = (if p % 2 = 1 then 2 ^ k else 0) + bitrev k (p / 2) := rfl
    rcases Nat.mod_two_eq_zero_or_one p with hpar | hpar
    · -- p even: the top bit of the reversal is clear; set it
      have ht : bitrev (k + 1) p = bitrev k (p / 2) := by
        rw [hbit, hpar]
        simp
      have hland : bitrev (k + 1) p &&& 2 ^ k = 0 := by
        rw [ht]
        have := land_single_bit (b := false) hr
        simpa using this
      rw [if_neg (by simp [hland])]
      have hlt : p + 1 < 2 ^ (k + 1) := by
        have h1 : 2 ^ (k + 1) = 2 ^ k * 2 := by rw [pow_succ]
        omega
      rw [Nat.mod_eq_of_lt hlt]
      have hodd : (p + 1) % 2 = 1 := by omega
      have hdiv : (p + 1) / 2 = p / 2 := by omega
      show bitrev (k + 1) p ||| 2 ^ k = bitrev (k + 1) (p + 1)
      rw [ht, lor_single_bit hr]
      show 2 ^ k + bitrev k (p / 2) =
        (if (p + 1) % 2 = 1 then 2 ^ k else 0) + bitrev k ((p + 1) / 2)
      rw [hodd, hdiv, if_pos rfl]
    · -- p odd: the top bit of the reversal is set; clear it and recurse
      have ht : bitrev (k + 1) p = 2 ^ k + bitrev k (p / 2) := by
        rw [hbit, hpar]
        simp
      have hland : bitrev (k + 1) p &&& 2 ^ k = 2 ^ k := by
        rw [ht]
        have := land_single_bit (b := true) hr
        simpa using this
      rw [if_pos (by simp [hland])]
      rw [ht, land_not_single_bit hk63 hr]
      rw [ih (by omega) hkf hp2]
      have heq : (p + 1) % 2 ^ (k + 1) = 2 * ((p / 2 + 1) % 2 ^ k) := by
        have h1 : p + 1 = 2 * (p / 2 + 1) := by omega
        rw [h1, pow_succ, Nat.mul_comm (2 ^ k) 2, Nat.mul_mod_mul_left]
      rw [heq]
      have heven : (2 * ((p / 2 + 1) % 2 ^ k)) % 2 = 0 := Nat.mul_mod_right 2 _
      show bitrev k ((p / 2 + 1) % 2 ^ k) =
        (if (2 * ((p / 2 + 1) % 2 ^ k)) % 2 = 1 then 2 ^ k else 0) +
          bitrev k ((2 * ((p / 2 + 1) % 2 ^ k)) / 2)
      rw [heven, Nat.mul_div_cancel_left _ (by norm_num : (0:ℕ) < 2)]
      simp

/-- Models `<[T]>::swap(i, j)` (no-op out of bounds; the source panics
there, but `rearrange` only swaps in bounds). -/
def list_swap {α : Type _} (l : List α) (i j : ℕ) : List α :=
  match l[i]?, l[j]? with
  | some a, some b => (l.set i b).set j a
  | _, _ => l

lemma list_swap_length {α : Type _} (l : List α) (i j : ℕ) :
    (list_swap l i j).length = l.length := by
  unfold list_swap
  rcases h1 : l[i]? with - | a <;> rcases h2 : l[j]? with - | b <;>
    simp [List.length_set]

lemma list_swap_getD {α : Type _} {l : List α} {i j : ℕ} (hi : i < l.length)
    (hj : j < l.length) (p : ℕ) (d : α) :
    (list_swap l i j).getD p d =
      if p = j then l.getD i d else if p = i then l.getD j d else l.getD p d := by
  unfold list_swap
  rw [List.getElem?_eq_getElem hi, List.getElem?_eq_getElem hj]
  show ((l.set i l[j]).set j l[i]).getD p d = _
  by_cases h1 : p = j
  · subst h1
    rw [if_pos rfl, CircularBuffer.getD_set_self (by rw [List.length_set]; exact hj) _,
      List.getD_eq_getElem _ _ hi]
  · rw [if_neg h1, CircularBuffer.getD_set_ne (fun h => h1 h.symm) _]
    by_cases h2 : p = i
    · subst h2
      rw [if_pos rfl, CircularBuffer.getD_set_self hi _, List.getD_eq_getElem _ _ hj]
    · rw [if_neg h2, CircularBuffer.getD_set_ne (fun h => h2 h.symm) _]

/-- Models `FFT::rearrange` (src/fft.rs:88-107): a fold over positions with
the running bit-reversed `target`, swapping whenever `target > position`. -/
def rearrange {α : Type _} (data : List α) : List α :=
  ((List.range data.length).foldl
    (fun st pos =>
      ((if st.2 > pos then list_swap st.1 st.2 pos else st.1),
        walkUpdate data.length st.2 data.length))
    (data, 0)).1

/-- Invariant-passing for a fold over `List.range`. -/
lemma foldl_range_inv {σ : Type _} (f : σ → ℕ → σ) (P : ℕ → σ → Prop) :
    ∀ (n : ℕ) (s0 : σ), P 0 s0 → (∀ p s, p < n → P p s → P (p + 1) (f s p)) →
      P n ((List.range n).foldl f s0) := by
  intro n
  induction n with
  | zero =>
    intro s0 h0 _
    simpa using h0
  | succ n ih =>
    intro s0 h0 hstep
    rw [List.range_succ, List.foldl_append, List.foldl_cons, List.foldl_nil]
    exact hstep n _ (Nat.lt_succ_self n)
      (ih s0 h0 (fun p s hp hps => hstep p s (by omega) hps))

lemma rearrange_length {α : Type _} (l : List α) : (rearrange l).length = l.length := by
  unfold rearrange
  have := foldl_range_inv
    (fun (st : List α × ℕ) pos =>
      ((if st.2 > pos then list_swap st.1 st.2 pos else st.1),
        walkUpdate l.length st.2 l.length))
    (fun _ st => st.1.length = l.length) l.length (l, 0) rfl ?_
  · exact this
  · intro p st _ hlen
    show (if st.2 > p then list_swap st.1 st.2 p else st.1).length = l.length
    split
    · rw [list_swap_length]
      exact hlen
    · exact hlen

/-- The net effect of `rearrange` on a power-of-two-length list is exactly
the bit-reversal permutation. -/
lemma rearrange_getD {α : Type _} {k : ℕ} {l : List α} (hk : k ≤ 64)
    (hl : l.length = 2 ^ k) :
    ∀ q, q < l.length → ∀ d, (rearrange l).getD q d = l.getD (bitrev k q) d := by
  have hkfuel : k ≤ l.length := by
    rw [hl]
    exact le_of_lt (Nat.lt_two_pow k)
  have main := foldl_range_inv
    (fun (st : List α × ℕ) pos =>
      ((if st.2 > pos then list_swap st.1 st.2 pos else st.1),
        walkUpdate l.length st.2 l.length))
    (fun p st =>
      st.1.length = l.length ∧
      st.2 = bitrev k (p % 2 ^ k) ∧
      ∀ q, q < l.length → ∀ d,
        st.1.getD q d = if min q (bitrev k q) < p then l.getD (bitrev k q) d
          else l.getD q d)
    l.length (l, 0) ?base ?step
  · intro q hq d
    obtain ⟨-, -, hchar⟩ := main
    have := hchar q hq d
    rw [if_pos (by have := Nat.min_le_left q (bitrev k q); omega)] at this
    exact this
  case base =>
    refine ⟨rfl, by rw [Nat.zero_mod, bitrev_zero_eq], ?_⟩
    intro q hq d
    rw [if_neg (by omega)]
  case step =>
    intro p st hp hinv
    obtain ⟨hlen, htgt, hchar⟩ := hinv
    have hp' : p < 2 ^ k := by omega
    have hpmod : p % 2 ^ k = p := Nat.mod_eq_of_lt hp'
    have hrv : st.2 = bitrev k p := by rw [htgt, hpmod]
    have hrv_lt : bitrev k p < 2 ^ k := bitrev_lt _ _
    have hrevrev : bitrev k (bitrev k p) = p := bitrev_bitrev hp'
    constructor
    · show (if st.2 > p then list_swap st.1 st.2 p else st.1).length = l.length
      split
      · rw [list_swap_length]
        exact hlen
      · exact hlen
    constructor
    · show walkUpdate l.length st.2 l.length = bitrev k ((p + 1) % 2 ^ k)
      rw [hrv]
      calc walkUpdate l.length (bitrev k p) l.length
          = walkUpdate l.length (bitrev k p) (2 ^ k) := by rw [hl]
        _ = bitrev k ((p + 1) % 2 ^ k) := walkUpdate_bitrev k hk (by omega) hp'
    · intro q hq d
      show (if st.2 > p then list_swap st.1 st.2 p else st.1).getD q d = _
      have hq' : q < 2 ^ k := by omega
      have hrevq_lt : bitrev k q < 2 ^ k := bitrev_lt _ _
      have hrevq_bound : bitrev k q < l.length := by omega
      by_cases hswap : st.2 > p
      · rw [if_pos hswap]
        have hswap2 : p < bitrev k p := by
          rw [hrv] at hswap
          exact hswap
        have hbound1 : st.2 < st.1.length := by
          rw [hrv, hlen, hl]
          omega
        have hgetD := list_swap_getD (l := st.1) hbound1
          (show p < st.1.length by omega) q d
        rw [hgetD, hrv]
        by_cases hqp : q = p
        · rw [if_pos hqp]
          have hc := hchar (bitrev k p) (by omega) d
          have hcnot : ¬ (min (bitrev k p) (bitrev k (bitrev k p)) < p) := by
            rw [hrevrev]
            omega
          rw [if_neg hcnot] at hc
          rw [hc, if_pos (by omega), hqp]
        · rw [if_neg hqp]
          by_cases hqrv : q = bitrev k p
          · rw [if_pos hqrv]
            have hc := hchar p (by omega) d
            have hcnot : ¬ (min p (bitrev k p) < p) := by omega
            rw [if_neg hcnot] at hc
            have hrevq_eq : bitrev k q = p := by
              rw [hqrv, hrevrev]
            rw [hc, if_pos (by omega), hrevq_eq]
          · rw [if_neg hqrv]
            have hne : min q (bitrev k q) ≠ p := by
              intro hmin
              have hcase : q = p ∨ bitrev k q = p := by omega
              rcases hcase with h | h
              · exact hqp h
              · apply hqrv
                have h2 := congrArg (bitrev k) h
                rw [bitrev_bitrev hq'] at h2
                exact h2
            have hc := hchar q hq d
            rw [hc]
            by_cases hcond : min q (bitrev k q) < p
            · rw [if_pos hcond, if_pos (by omega)]
            · rw [if_neg hcond, if_neg (by omega)]
      · rw [if_neg hswap]
        have hswap2 : bitrev k p ≤ p := by
          rw [hrv] at hswap
          omega
        by_cases hqp : q = p
        · have hrevq_le : bitrev k q ≤ q := by
            rw [hqp]
            exact hswap2
          rcases Nat.lt_or_eq_of_le hrevq_le with hlt2 | heq2
          · have hc := hchar q hq d
            have hcyes : min q (bitrev k q) < p := by omega
            rw [if_pos hcyes] at hc
            rw [if_pos (by omega)]
            exact hc
          · have hc := hchar q hq d
            have hcnot : ¬ (min q (bitrev k q) < p) := by omega
            rw [if_neg hcnot] at hc
            rw [if_pos (by omega), heq2]
            exact hc
        · have hne : min q (bitrev k q) ≠ p := by
            intro hmin
            have hcase : q = p ∨ bitrev k q = p := by omega
            rcases hcase with h | h
            · exact hqp h
            · apply hqp
              have h2 := congrArg (bitrev k) h
              rw [bitrev_bitrev hq'] at h2
              have hq_eq : q = bitrev k p := h2
              omega
          have hc := hchar q hq d
          rw [hc]
          by_cases hcond : min q (bitrev k q) < p
          · rw [if_pos hcond, if_pos (by omega)]
          · rw [if_neg hcond, if_neg (by omega)]

/-- C8: `FFT::rearrange` applied twice to a slice of power-of-two length
restores the original order (the bit-reversal permutation is an
involution), and for length 8 the input `[0,…,7]` maps to
`[0,4,2,6,1,5,3,7]`. -/
theorem c8_rearrange_involution :
    (∀ (α : Type) (k : ℕ) (l : List α), l.length ≤ usizeMax → l.length = 2 ^ k →
      rearrange (rearrange l) = l) ∧
    rearrange [0, 1, 2, 3, 4, 5, 6, 7] = [0, 4, 2, 6, 1, 5, 3, 7] := by
  constructor
  · intro α k l hsz hl
    have hk : k ≤ 64 := by
      by_contra hcon
      push_neg at hcon
      have h1 : (2 : ℕ) ^ 64 ≤ 2 ^ k := Nat.pow_le_pow_right (by norm_num) (by omega)
      have h2 : usizeMax < 2 ^ 64 := by
        show 2 ^ 64 - 1 < 2 ^ 64
        omega
      omega
    have hlen1 : (rearrange l).length = l.length := rearrange_length l
    apply List.ext_getElem
    · rw [rearrange_length, hlen1]
    · intro n h1 h2
      have hn : n < l.length := h2
      have hn2 : n < 2 ^ k := by omega
      have hl2 : (rearrange l).length = 2 ^ k := by rw [hlen1, hl]
      rw [← List.getD_eq_getElem _ (l[n]) h1, ← List.getD_eq_getElem _ (l[n]) h2]
      rw [rearrange_getD (l := rearrange l) hk hl2 n (by omega) _]
      rw [rearrange_getD (l := l) hk hl (bitrev k n)
        (by rw [hl]; exact bitrev_lt _ _) _]
      rw [bitrev_bitrev hn2]
      rw [List.getD_eq_getElem _ _ hn, List.getD_eq_getElem _ _ hn]
  · decide

/-- Witness for C8 at `k = 2`, `l = [10, 20, 30, 40]`. -/
theorem c8_rearrange_involution_witness :
    ([10, 20, 30, 40] : List ℕ).length = 2 ^ 2 ∧
    rearrange (rearrange [10, 20, 30, 40]) = [10, 20, 30, 40] :=
  ⟨by decide, c8_rearrange_involution.1 ℕ 2 [10, 20, 30, 40]
    (by norm_num [usizeMax, usizeSize]) (by decide)⟩

/-! ### `TransformType` (src/dft.rs:13-16) and the `f32` FFT pipeline over ℚ

`f32` values are modelled as exact rationals; the transcendental `sin` is a
function parameter `sinf` and the `f32` constant `PI` a parameter `piQ`
(every theorem below holds for all choices, in particular the true rounded
`f32` ones). -/

inductive TransformType where
  | Forward
  | Inverse

/-- Complex numbers over the exact-`f32` scalars: pairs (re, im). -/
abbrev QC := ℚ × ℚ

def cadd (a b : QC) : QC := (a.1 + b.1, a.2 + b.2)

def csub (a b : QC) : QC := (a.1 - b.1, a.2 - b.2)

def cmul (a b : QC) : QC := (a.1 * b.1 - a.2 * b.2, a.1 * b.2 + a.2 * b.1)

namespace FFTQ

/-- One butterfly (the body of the inner `while` of `in_place_transform`,
src/fft.rs:72-78): `product = factor * data[pos + step]`;
`data[pos + step] = data[pos] - product`; `data[pos] += product`. -/
def butterfly (data : List QC) (pos step : ℕ) (factor : QC) : List QC :=
  let product := cmul factor (data.getD (pos + step) (0, 0))
  let d1 := data.set (pos + step) (csub (data.getD pos (0, 0)) product)
  d1.set pos (cadd (d1.getD pos (0, 0)) product)

/-- The inner `while pair_position < len` loop (fuel-driven; any fuel at
least the list length is exact). -/
def pairLoop : ℕ → List QC → ℕ → ℕ → ℕ → QC → List QC
  | 0, data, _, _, _, _ => data
  | fuel + 1, data, pos, step, jump, factor =>
    if pos < data.length then
      pairLoop fuel (butterfly data pos step factor) (pos + jump) step jump factor
    else data

/-- The `(0..step).for_each(|group| …)` loop with the running `factor`
recurrence `factor = multiplier * factor + factor` (src/fft.rs:70-80). -/
def passQ (data : List QC) (step : ℕ) (multiplier : QC) : List QC :=
  ((List.range step).foldl
    (fun st group =>
      (pairLoop st.1.length st.1 group step (2 * step) st.2,
        cadd (cmul multiplier st.2) st.2))
    (data, ((1 : ℚ), (0 : ℚ)))).1

/-- The outer `while step < len` loop of `in_place_transform`
(src/fft.rs:59-83), doubling `step` and computing
`delta = ∓π/step`, `sin = (delta*0.5).sin()`,
`multiplier = (-2·sin², sin delta)` per pass. -/
def transformLoop (sinf : ℚ → ℚ) (piQ : ℚ) (direction : TransformType) :
    ℕ → List QC → ℕ → List QC
  | 0, data, _ => data
  | fuel + 1, data, step =>
    if step < data.length then
      let delta : ℚ := match direction with
        | TransformType.Forward => -piQ / step
        | TransformType.Inverse => piQ / step
      let s := sinf (delta * (1 / 2))
      let multiplier : QC := (-2 * s * s, sinf delta)
      transformLoop sinf piQ direction fuel (passQ data step multiplier) (2 * step)
    else data

/-- Models `FFT::scale` (src/fft.rs:109-112): multiply each element by the
real scalar `1 / len`. -/
def scaleQ (data : List QC) : List QC :=
  data.map (fun c => cmul c ((1 / (data.length : ℚ)), 0))

/-- Models `FFT::in_place_transform` (src/fft.rs:53-87); `none` is the
panic on a non-power-of-two length. -/
def in_place_transform (sinf : ℚ → ℚ) (piQ : ℚ) (data : List QC)
    (direction : TransformType) (scale : Bool) : Option (List QC) :=
  if data.length &&& (data.length - 1) ≠ 0 then none
  else
    let r := transformLoop sinf piQ direction data.length data 1
    some (if scale then scaleQ r else r)

/-- Models the strict entry point `FFT::fft` (src/fft.rs:43-51): rearrange
FIRST, then validate the length; `Err` leaves the rearranged data behind.
The outer `Option` is the (unreachable on both paths) panic of
`in_place_transform`. -/
def fft (sinf : ℚ → ℚ) (piQ : ℚ) (data : List QC) (direction : TransformType)
    (scale : Bool) : Option (Except Unit (List QC) × List QC) :=
  let d := rearrange data
  if is_power_of_two d.length = false then some (Except.error (), d)
  else (in_place_transform sinf piQ d direction scale).map
    (fun r => (Except.ok r, r))

end FFTQ

/-- C10: the strict entry point `FFT::fft` rearranges before validating the
length: on the length-5 input `[0,1,2,3,4]` (as complex values) it returns
`Err` while the slice has been permuted to `[0,2,1,3,4]`, which differs
from the original — the error return is not atomic. (`sinf`/`piQ` are
irrelevant on this path; any values give the same result.) -/
theorem c10_fft_err_not_atomic :
    FFTQ.fft (fun _ => 0) 0
        [((0 : ℚ), (0 : ℚ)), (1, 0), (2, 0), (3, 0), (4, 0)]
        TransformType.Forward false =
      some (Except.error (), [((0 : ℚ), (0 : ℚ)), (2, 0), (1, 0), (3, 0), (4, 0)]) ∧
    ([((0 : ℚ), (0 : ℚ)), (2, 0), (1, 0), (3, 0), (4, 0)] :
        List QC) ≠ [((0 : ℚ), (0 : ℚ)), (1, 0), (2, 0), (3, 0), (4, 0)] := by
  refine ⟨rfl, by decide⟩

/-! ### `Note::freq_to_number` (src/audio_analysis.rs:56-61) -/

/-- Model of an `f32` input value: a finite exact rational, an infinity, or
NaN. (Finite covers normal and subnormal values; classification is by
magnitude.) -/
inductive F32 where
  | finite (val : ℚ)
  | inf
  | neginf
  | nan
deriving DecidableEq

/-- Models `f32::is_normal`: normal means finite with
`2^-126 ≤ |x| < 2^128` (nonzero, not subnormal, not infinite/NaN). -/
def F32.is_normal : F32 → Bool
  | F32.finite v => decide ((1 : ℚ) / 2 ^ 126 ≤ |v|) && decide (|v| < 2 ^ 128)
  | _ => false

/-- Models `Note::freq_to_number(frequency, a4_freq)`:
`if frequency == 0.0 || !frequency.is_normal() { return 0.0; }`
`return 12.0 * (frequency / a4_freq as f32).log2() + 69.0;`
The result is an exact real (`none` models a NaN result: `log2` of a
negative argument). -/
noncomputable def freq_to_number (f : F32) (a4_freq : ℕ) : Option ℝ :=
  match f with
  | F32.finite v =>
    if v = 0 ∨ ¬ (F32.is_normal (F32.finite v) = true) then some 0
    else if v < 0 then none
    else some (12 * Real.logb 2 ((v : ℝ) / (a4_freq : ℝ)) + 69)
  | _ => some 0

/-- The claimed formula value is never `0` at rational inputs: that would
force `a4/f = 2^(23/4)`, which is irrational. -/
lemma c9_formula_ne_zero {v : ℚ} {a4 : ℕ} (ha : 0 < a4) (hv : 0 < v) :
    12 * Real.logb 2 ((v : ℝ) / (a4 : ℝ)) + 69 ≠ 0 := by
  intro heq
  have hxpos : 0 < (v : ℝ) / (a4 : ℝ) := by positivity
  have hlogb : Real.logb 2 ((v : ℝ) / (a4 : ℝ)) = -(23 / 4) := by linarith
  have hx : (v : ℝ) / (a4 : ℝ) = (2 : ℝ) ^ (-(23 / 4) : ℝ) := by
    rw [← hlogb, Real.rpow_logb (by norm_num) (by norm_num) hxpos]
  have hq : ((a4 / v : ℚ) : ℝ) = (2 : ℝ) ^ ((23 / 4 : ℝ)) := by
    push_cast
    rw [show (a4 : ℝ) / (v : ℝ) = ((v : ℝ) / (a4 : ℝ))⁻¹ from by
      rw [inv_div]]
    rw [hx, ← Real.rpow_neg (by norm_num), neg_neg]
  have hpow : (((a4 / v : ℚ) : ℝ)) ^ (4 : ℕ) = ((8388608 : ℤ) : ℝ) := by
    rw [hq, ← Real.rpow_natCast ((2 : ℝ) ^ ((23 / 4 : ℝ))) 4,
      ← Real.rpow_mul (by norm_num)]
    rw [show (23 / 4 : ℝ) * (4 : ℕ) = ((23 : ℕ) : ℝ) from by push_cast; ring]
    rw [Real.rpow_natCast]
    norm_num
  have hexist : ∃ y : ℤ, ((a4 / v : ℚ) : ℝ) = y := by
    by_contra hcon
    exact (Rat.not_irrational _)
      (irrational_nrt_of_notint_nrt 4 8388608 hpow hcon (by norm_num))
  obtain ⟨y, hy⟩ := hexist
  have hy4 : y ^ (4 : ℕ) = 8388608 := by
    have h2 : ((y : ℝ)) ^ (4 : ℕ) = ((8388608 : ℤ) : ℝ) := by
      rw [← hy]
      exact hpow
    exact_mod_cast h2
  have hypos : 0 < y := by
    have h3 : (0 : ℝ) < (y : ℝ) := by
      rw [← hy, hq]
      positivity
    exact_mod_cast h3
  rcases le_or_lt y 53 with h | h
  · have h4 : y ^ 4 ≤ 53 ^ 4 := pow_le_pow_left (by omega) h 4
    norm_num at h4
    omega
  · have h5 : (54 : ℤ) ≤ y := by omega
    have h4 : (54 : ℤ) ^ 4 ≤ y ^ 4 := pow_le_pow_left (by norm_num) h5 4
    norm_num at h4
    omega

/-- C9 counterexample: the subnormal input `2^-130` is finite and nonzero,
yet `freq_to_number` returns `0` (the code tests `is_normal`, which is
false for subnormals), and the claimed formula value there is not `0`. -/
theorem c9_freq_to_number_counterexample :
    freq_to_number (F32.finite (1 / 2 ^ 130)) 440 = some 0 ∧
    ((1 : ℚ) / 2 ^ 130) ≠ 0 ∧
    12 * Real.logb 2 (((1 / 2 ^ 130 : ℚ) : ℝ) / ((440 : ℕ) : ℝ)) + 69 ≠ 0 := by
  refine ⟨?_, by norm_num, c9_formula_ne_zero (by norm_num) (by norm_num)⟩
  have hnotnormal : F32.is_normal (F32.finite (1 / 2 ^ 130)) = false := by
    simp only [F32.is_normal, Bool.and_eq_false_iff, decide_eq_false_iff_not]
    left
    rw [abs_of_pos (by norm_num), not_le]
    have h1 : ((2 : ℚ)) ^ 126 < 2 ^ 130 :=
      pow_lt_pow_right₀ (by norm_num) (by norm_num)
    exact div_lt_div_of_pos_left (by norm_num) (by positivity) h1
  show (if (1 / 2 ^ 130 : ℚ) = 0 ∨ ¬ (F32.is_normal (F32.finite (1 / 2 ^ 130)) = true)
    then some (0 : ℝ) else _) = some 0
  rw [if_pos (Or.inr (by rw [hnotnormal]; simp))]

/-- C9 amended: `freq_to_number(f, a4)` (for a positive reference pitch)
returns 0 exactly when `f` is not a NORMAL float — i.e. when `f` is 0,
subnormal, or non-finite; for every positive normal `f` it returns
`12·log2(f/a4) + 69`, and for negative normal `f` the `log2` argument is
negative and the result is NaN. -/
theorem c9_freq_to_number (f : F32) (a4 : ℕ) (ha : 0 < a4) :
    (freq_to_number f a4 = some 0 ↔ F32.is_normal f = false) ∧
    (∀ v : ℚ, f = F32.finite v → F32.is_normal f = true → 0 < v →
      freq_to_number f a4 = some (12 * Real.logb 2 ((v : ℝ) / (a4 : ℝ)) + 69)) ∧
    (∀ v : ℚ, f = F32.finite v → F32.is_normal f = true → v < 0 →
      freq_to_number f a4 = none) := by
  refine ⟨?_, ?_, ?_⟩
  · constructor
    · intro hres
      by_contra hcon
      have hnorm : F32.is_normal f = true := by
        cases hb : F32.is_normal f
        · exact absurd hb hcon
        · rfl
      match f with
      | F32.finite v =>
        have hv0 : v ≠ 0 := by
          intro h0
          subst h0
          simp [F32.is_normal] at hnorm
          norm_num at hnorm
        rcases lt_trichotomy v 0 with hneg | hzero | hpos
        · rw [freq_to_number, if_neg (by simp [hnorm, hv0]), if_pos hneg] at hres
          exact Option.noConfusion hres
        · exact hv0 hzero
        · rw [freq_to_number, if_neg (by simp [hnorm, hv0]),
            if_neg (not_lt.mpr (le_of_lt hpos))] at hres
          have := Option.some.inj hres
          exact c9_formula_ne_zero ha hpos this
      | F32.inf => simp [F32.is_normal] at hnorm
      | F32.neginf => simp [F32.is_normal] at hnorm
      | F32.nan => simp [F32.is_normal] at hnorm
    · intro hnot
      match f with
      | F32.finite v =>
        by_cases hv0 : v = 0
        · rw [freq_to_number, if_pos (Or.inl hv0)]
        · rw [freq_to_number, if_pos (Or.inr (by simp [hnot]))]
      | F32.inf => rfl
      | F32.neginf => rfl
      | F32.nan => rfl
  · intro v hf hnorm hpos
    subst hf
    rw [freq_to_number, if_neg (by simp [hnorm]; exact ne_of_gt hpos),
      if_neg (not_lt.mpr (le_of_lt hpos))]
  · intro v hf hnorm hneg
    subst hf
    rw [freq_to_number, if_neg (by simp [hnorm]; exact ne_of_lt hneg), if_pos hneg]

/-- Witness for C9 amended at the normal input `f = 880`, `a4 = 440`. -/
theorem c9_freq_to_number_witness :
    (freq_to_number (F32.finite 880) 440 = some 0 ↔
      F32.is_normal (F32.finite 880) = false) ∧
    (∀ v : ℚ, F32.finite (880 : ℚ) = F32.finite v →
      F32.is_normal (F32.finite 880) = true → 0 < v →
      freq_to_number (F32.finite 880) 440 =
        some (12 * Real.logb 2 ((v : ℝ) / ((440 : ℕ) : ℝ)) + 69)) ∧
    (∀ v : ℚ, F32.finite (880 : ℚ) = F32.finite v →
      F32.is_normal (F32.finite 880) = true → v < 0 →
      freq_to_number (F32.finite 880) 440 = none) :=
  c9_freq_to_number (F32.finite 880) 440 (by norm_num)



/-! ### `AudioAnalyzer` (src/audio_analysis.rs:107-243)

The analyzer is embedded over exact-rational stand-ins for `f32` values.
The transcendental ingredients — `cos` in the window builders, `sin` in
the FFT passes, the square root inside `Complex::abs`, and the constant
`π` — are taken as function parameters, so every theorem below holds for
EVERY choice of them, in particular for the true `f32` ones. -/

/-- Models `WindowType` (src/audio_analysis.rs:116-119). -/
inductive WindowType where
  | Hamming
  | Hann

/-- Models `AudioAnalyzer::build_hamming_window(size)`
(src/audio_analysis.rs:157-164): entry `i` is
`0.54 - 0.46 * cos(2π·i/size)`. -/
def build_hamming_window (cosf : ℚ → ℚ) (piQ : ℚ) (size : ℕ) : List ℚ :=
  (List.range size).map
    (fun i : ℕ => 0.54 - 0.46 * cosf (2 * piQ * (i : ℚ) / (size : ℚ)))

/-- Models `AudioAnalyzer::build_hann_window(size)`
(src/audio_analysis.rs:166-173): entry `i` is
`0.5 * (1 - cos(2π·i/(size - 1)))`. -/
def build_hann_window (cosf : ℚ → ℚ) (piQ : ℚ) (size : ℕ) : List ℚ :=
  (List.range size).map
    (fun i : ℕ => 0.5 * (1 - cosf (2 * piQ * (i : ℚ) / ((size : ℚ) - 1))))

/-- Models the `AudioAnalyzer` struct (src/audio_analysis.rs:107-115). -/
structure AudioAnalyzer where
  window : List ℚ
  buffer : CircularBuffer ℚ
  padded_buffer : List ℚ
  hps_count : ℕ
  a4_freq : ℕ
  sample_rate : ℕ
  result_buffer : List ℚ

/-- Models `AudioAnalyzer::new` (src/audio_analysis.rs:122-149). -/
def AudioAnalyzer.new (cosf : ℚ → ℚ) (piQ : ℚ)
    (sample_rate buffer_size hps_count zero_padding_factor a4_freq : ℕ)
    (window_type : WindowType) : AudioAnalyzer :=
  { window := match window_type with
      | WindowType.Hamming =>
        build_hamming_window cosf piQ (lower_power_of_two buffer_size)
      | WindowType.Hann =>
        build_hann_window cosf piQ (lower_power_of_two buffer_size)
    buffer := CircularBuffer.new (lower_power_of_two buffer_size)
    padded_buffer :=
      List.replicate (lower_power_of_two (buffer_size * (1 + zero_padding_factor))) 0
    hps_count := hps_count
    a4_freq := a4_freq
    sample_rate := sample_rate
    result_buffer :=
      List.replicate (lower_power_of_two (buffer_size * (1 + zero_padding_factor)) / 2) 0 }

/-- Models `AudioAnalyzer::add_samples` (src/audio_analysis.rs:151-155):
each sample is pushed with `push_back`, any evicted value is dropped. -/
def AudioAnalyzer.add_samples (a : AudioAnalyzer) (samples : List ℚ) : AudioAnalyzer :=
  { a with buffer := CircularBuffer.push_all a.buffer samples }

/-- Models `AudioAnalyzer::copy_to_zero_padded_buffer`
(src/audio_analysis.rs:175-188): the zip of `buffer.iter()`,
`window.iter()` and `padded_buffer.iter_mut()` writes `sample * window`
into the first `min (zip length) (padded length)` slots, then
`iter_mut().skip(len)` zeroes every slot from index `len = buffer.len()`
on. The ring-buffer iterator is read through `logicalList` (initialized
cells hold `some`; `getD 0` extracts the value). -/
def AudioAnalyzer.copy_to_zero_padded_buffer (a : AudioAnalyzer) : AudioAnalyzer :=
  let len := a.buffer.size
  let samples := (CircularBuffer.logicalList a.buffer).map (fun c => c.getD 0)
  let prods := List.zipWith (· * ·) samples a.window
  let written := min prods.length a.padded_buffer.length
  let p1 := prods.take written ++ a.padded_buffer.drop written
  { a with padded_buffer := p1.take len ++ List.replicate (p1.length - len) 0 }

/-- Models the body of `FFT::new` (src/fft.rs:21-36): truncate the input
to `lower_power_of_two` of its length when that length is not a power of
two, then lift the real samples to complex values. -/
def fft_new_data (data : List ℚ) : List QC :=
  (data.take (if is_power_of_two data.length = false
      then lower_power_of_two data.length else data.length)).map
    (fun v => ((v : ℚ), (0 : ℚ)))

/-- Models `FFT::transform` (src/fft.rs:38-42): `rearrange`, then
`in_place_transform` on the stored (already truncated) data. -/
def FFTQ.transform (sinf : ℚ → ℚ) (piQ : ℚ) (data : List QC)
    (direction : TransformType) (scale : Bool) : Option (List QC) :=
  FFTQ.in_place_transform sinf piQ (rearrange data) direction scale

/-- Models `Complex::<f32>::abs` (`re.hypot(im)`, mathematically
`sqrt(re² + im²)`), with the square root passed in as a parameter. -/
def complex_abs (sqrtf : ℚ → ℚ) (c : QC) : ℚ := sqrtf (c.1 * c.1 + c.2 * c.2)

/-- Models `iter().enumerate().max_by(|(_, a), (_, b)| a.total_cmp(b))`
(src/audio_analysis.rs:228-233): Rust's `max_by` folds keeping the
accumulator only when it compares strictly greater, so among equal maxima
the LAST one wins. -/
def max_by_last (l : List ℚ) : Option (ℕ × ℚ) :=
  l.enum.foldl
    (fun acc p => match acc with
      | none => some p
      | some q => if q.2 > p.2 then some q else some p)
    none

/-- Models the low-frequency suppression loop of `strongest_freq`
(src/audio_analysis.rs:221-226): at the first frequency-table entry above
60 Hz the prefix `half_data[..i]` is zeroed and the loop breaks; `none`
is the slice panic when that first index exceeds the half-spectrum
length. -/
def suppress_low (ft : List ℚ) (half : List ℚ) : Option (List ℚ) :=
  match ft.findIdx? (fun fr => decide (60 < fr)) with
  | none => some half
  | some i =>
    if i ≤ half.length then some (List.replicate i 0 ++ half.drop i) else none

/-- The tail of `strongest_freq` after suppression
(src/audio_analysis.rs:228-238): `max_by … .unwrap()` (`none` on an empty
half spectrum), the `freq_table[loudest_tone_index]` bounds check, the
two-decimal rounding, and the `copy_from_slice` into `result_buffer`
(`none` when the lengths differ, the `copy_from_slice` panic). -/
def strongest_freq_stage2 (a1 : AudioAnalyzer) (ft : List ℚ) (half2 : List ℚ) :
    Option (ℚ × AudioAnalyzer) :=
  (max_by_last half2).bind
    (fun p =>
      if p.1 < ft.length then
        if a1.result_buffer.length = half2.length then
          some (round2 (ft.getD p.1 0), { a1 with result_buffer := half2 })
        else none
      else none)

/-- The middle of `strongest_freq` (src/audio_analysis.rs:212-226): the
frequency table is built from the `u32`-truncated spectrum length and
`1 / sample_rate`, the half spectrum `result[0..len/2]` runs through the
harmonic product spectrum, then the low frequencies are suppressed. -/
def strongest_freq_stage1 (a1 : AudioAnalyzer) (result : List ℚ) :
    Option (ℚ × AudioAnalyzer) :=
  (suppress_low (freq_table (result.length % 2 ^ 32) (1 / (a1.sample_rate : ℚ)))
      (apply_harmonic_product_spectrum a1.hps_count
        (result.take (result.length / 2)))).bind
    (fun half2 =>
      strongest_freq_stage2 a1
        (freq_table (result.length % 2 ^ 32) (1 / (a1.sample_rate : ℚ))) half2)

/-- Models `AudioAnalyzer::strongest_freq` (src/audio_analysis.rs:203-239):
copy the windowed samples into the zero-padded buffer, run the forward
FFT (`FFT::new` + `transform(false)`), take magnitudes, and hand over to
the table/HPS/suppression/argmax stages. `none` collects the panics on
the way. -/
def AudioAnalyzer.strongest_freq (sinf sqrtf : ℚ → ℚ) (piQ : ℚ)
    (a : AudioAnalyzer) : Option (ℚ × AudioAnalyzer) :=
  (FFTQ.transform sinf piQ
      (fft_new_data (a.copy_to_zero_padded_buffer).padded_buffer)
      TransformType.Forward false).bind
    (fun spec =>
      strongest_freq_stage1 a.copy_to_zero_padded_buffer
        (spec.map (complex_abs sqrtf)))

/-! #### Zero-propagation lemmas -/

lemma take_replicate_min {α : Type _} (x : α) (m n : ℕ) :
    (List.replicate n x).take m = List.replicate (min m n) x :=
  List.eq_replicate_iff.mpr ⟨by simp, fun b hb =>
    List.eq_of_mem_replicate (List.take_subset _ _ hb)⟩

lemma drop_replicate_sub {α : Type _} (x : α) (m n : ℕ) :
    (List.replicate n x).drop m = List.replicate (n - m) x :=
  List.eq_replicate_iff.mpr ⟨by simp, fun b hb =>
    List.eq_of_mem_replicate (List.drop_subset _ _ hb)⟩

lemma getD_replicate_self {α : Type _} (x : α) (n i : ℕ) :
    (List.replicate n x).getD i x = x := by
  rw [List.getD_eq_getElem?_getD, List.getElem?_replicate]
  split <;> simp

lemma map_getD_eq_replicate {l : List (Option ℚ)} (h : ∀ o ∈ l, o.getD 0 = 0) :
    l.map (fun c => c.getD 0) = List.replicate l.length 0 :=
  List.eq_replicate_iff.mpr ⟨by simp, fun b hb => by
    rcases List.mem_map.mp hb with ⟨o, ho, rfl⟩
    exact h o ho⟩

lemma zipWith_mul_replicate_zero : ∀ (n : ℕ) (l : List ℚ),
    List.zipWith (· * ·) (List.replicate n 0) l =
      List.replicate (min n l.length) 0 := by
  intro n
  induction n with
  | zero => intro l; simp
  | succ k ih =>
    intro l
    match l with
    | [] => simp
    | b :: bs =>
      rw [List.replicate_succ]
      show (0 * b) :: List.zipWith (· * ·) (List.replicate k 0) bs = _
      rw [ih bs]
      simp only [List.length_cons]
      rw [show min (k + 1) (bs.length + 1) = min k bs.length + 1 from by omega,
        List.replicate_succ, zero_mul]

/-- The zero-write pattern of `copy_to_zero_padded_buffer` on an all-zero
sample list, as one pure list identity. -/
lemma padded_zero_key (S : ℕ) (pad : List ℚ) :
    ((List.replicate S (0 : ℚ)).take (min S pad.length) ++
        pad.drop (min S pad.length)).take S ++
      List.replicate
        (((List.replicate S (0 : ℚ)).take (min S pad.length) ++
          pad.drop (min S pad.length)).length - S) 0 =
      List.replicate pad.length 0 := by
  rcases le_total S pad.length with h | h
  · rw [Nat.min_eq_left h, take_replicate_min, min_self,
      List.take_left' (by simp : (List.replicate S (0 : ℚ)).length = S)]
    simp only [List.length_append, List.length_replicate, List.length_drop]
    rw [← List.replicate_add]
    congr 1
    omega
  · rw [Nat.min_eq_right h, take_replicate_min, Nat.min_eq_left h,
      List.drop_length, List.append_nil, take_replicate_min, Nat.min_eq_right h]
    simp only [List.length_replicate]
    rw [show pad.length - S = 0 from by omega]
    simp

lemma copy_to_zero_padded_buffer_zero {a : AudioAnalyzer}
    (hzero : ∀ o ∈ CircularBuffer.logicalList a.buffer, o.getD 0 = 0)
    (hwin : a.buffer.size ≤ a.window.length) :
    (a.copy_to_zero_padded_buffer).padded_buffer =
      List.replicate a.padded_buffer.length 0 := by
  have hsamples : (CircularBuffer.logicalList a.buffer).map (fun c => c.getD 0) =
      List.replicate a.buffer.size 0 := by
    rw [map_getD_eq_replicate hzero, CircularBuffer.logicalList_length]
  simp only [AudioAnalyzer.copy_to_zero_padded_buffer]
  rw [hsamples, zipWith_mul_replicate_zero, Nat.min_eq_left hwin,
    List.length_replicate]
  exact padded_zero_key a.buffer.size a.padded_buffer

lemma fft_new_data_replicate_zero {n : ℕ} (h : is_power_of_two n = true) :
    fft_new_data (List.replicate n 0) = List.replicate n ((0 : ℚ), (0 : ℚ)) := by
  unfold fft_new_data
  rw [List.length_replicate, h]
  simp [take_replicate_min]

lemma list_swap_replicate {α : Type _} (x : α) (n i j : ℕ) :
    list_swap (List.replicate n x) i j = List.replicate n x := by
  unfold list_swap
  rcases h1 : (List.replicate n x)[i]? with - | a <;>
    rcases h2 : (List.replicate n x)[j]? with - | b
  · rfl
  · rfl
  · rfl
  · have ha : a = x := List.eq_of_mem_replicate (List.getElem?_mem h1)
    have hb : b = x := List.eq_of_mem_replicate (List.getElem?_mem h2)
    subst ha
    subst hb
    simp

lemma rearrange_replicate {α : Type _} (n : ℕ) (x : α) :
    rearrange (List.replicate n x) = List.replicate n x := by
  unfold rearrange
  have := foldl_range_inv
    (fun (st : List α × ℕ) pos =>
      ((if st.2 > pos then list_swap st.1 st.2 pos else st.1),
        walkUpdate (List.replicate n x).length st.2 (List.replicate n x).length))
    (fun _ st => st.1 = List.replicate n x)
    (List.replicate n x).length (List.replicate n x, 0) rfl ?_
  · exact this
  · intro p st _ hst
    show (if st.2 > p then list_swap st.1 st.2 p else st.1) = _
    split
    · rw [hst, list_swap_replicate]
    · exact hst

lemma cmul_zero_right (f : QC) : cmul f ((0 : ℚ), (0 : ℚ)) = ((0 : ℚ), (0 : ℚ)) := by
  show (f.1 * 0 - f.2 * 0, f.1 * 0 + f.2 * 0) = ((0 : ℚ), (0 : ℚ))
  norm_num

lemma csub_zero_zero : csub ((0 : ℚ), (0 : ℚ)) ((0 : ℚ), (0 : ℚ)) = ((0 : ℚ), (0 : ℚ)) := by
  show ((0 - 0 : ℚ), (0 - 0 : ℚ)) = ((0 : ℚ), (0 : ℚ))
  norm_num

lemma cadd_zero_zero : cadd ((0 : ℚ), (0 : ℚ)) ((0 : ℚ), (0 : ℚ)) = ((0 : ℚ), (0 : ℚ)) := by
  show ((0 + 0 : ℚ), (0 + 0 : ℚ)) = ((0 : ℚ), (0 : ℚ))
  norm_num

lemma butterfly_replicate_zero (n pos step : ℕ) (f : QC) :
    FFTQ.butterfly (List.replicate n ((0 : ℚ), (0 : ℚ))) pos step f =
      List.replicate n ((0 : ℚ), (0 : ℚ)) := by
  unfold FFTQ.butterfly
  simp only [getD_replicate_self, cmul_zero_right, csub_zero_zero,
    List.set_replicate_self, cadd_zero_zero]

lemma pairLoop_replicate_zero (n : ℕ) :
    ∀ (fuel pos step jump : ℕ) (f : QC),
      FFTQ.pairLoop fuel (List.replicate n ((0 : ℚ), (0 : ℚ))) pos step jump f =
        List.replicate n ((0 : ℚ), (0 : ℚ)) := by
  intro fuel
  induction fuel with
  | zero => intro pos step jump f; rfl
  | succ k ih =>
    intro pos step jump f
    unfold FFTQ.pairLoop
    split
    · rw [butterfly_replicate_zero]
      exact ih _ _ _ _
    · rfl

lemma passQ_replicate_zero (n step : ℕ) (mult : QC) :
    FFTQ.passQ (List.replicate n ((0 : ℚ), (0 : ℚ))) step mult =
      List.replicate n ((0 : ℚ), (0 : ℚ)) := by
  unfold FFTQ.passQ
  have := foldl_range_inv
    (fun (st : List QC × QC) group =>
      (FFTQ.pairLoop st.1.length st.1 group step (2 * step) st.2,
        cadd (cmul mult st.2) st.2))
    (fun _ st => st.1 = List.replicate n ((0 : ℚ), (0 : ℚ)))
    step (List.replicate n ((0 : ℚ), (0 : ℚ)), ((1 : ℚ), (0 : ℚ))) rfl ?_
  · exact this
  · intro p st _ hst
    show FFTQ.pairLoop st.1.length st.1 p step (2 * step) st.2 = _
    rw [hst]
    exact pairLoop_replicate_zero n _ p step (2 * step) st.2

lemma transformLoop_replicate_zero (sinf : ℚ → ℚ) (piQ : ℚ)
    (dir : TransformType) (n : ℕ) :
    ∀ (fuel step : ℕ),
      FFTQ.transformLoop sinf piQ dir fuel (List.replicate n ((0 : ℚ), (0 : ℚ))) step =
        List.replicate n ((0 : ℚ), (0 : ℚ)) := by
  intro fuel
  induction fuel with
  | zero => intro step; rfl
  | succ k ih =>
    intro step
    unfold FFTQ.transformLoop
    split
    · simp only [passQ_replicate_zero, ih]
    · rfl

lemma transform_replicate_zero (sinf : ℚ → ℚ) (piQ : ℚ) (dir : TransformType)
    {n : ℕ} (h : n &&& (n - 1) = 0) :
    FFTQ.transform sinf piQ (List.replicate n ((0 : ℚ), (0 : ℚ))) dir false =
      some (List.replicate n ((0 : ℚ), (0 : ℚ))) := by
  unfold FFTQ.transform FFTQ.in_place_transform
  rw [rearrange_replicate, List.length_replicate, h,
    if_neg (show ¬(0 ≠ 0) from by simp),
    transformLoop_replicate_zero sinf piQ dir n]
  rfl

lemma foldl_fixed_of_mem {σ : Type _} (f : σ → ℕ → σ) (s : σ) :
    ∀ (l : List ℕ), (∀ i ∈ l, f s i = s) → l.foldl f s = s := by
  intro l
  induction l with
  | nil => intro _; rfl
  | cons a t ih =>
    intro h
    rw [List.foldl_cons, h a (by simp)]
    exact ih (fun i hi => h i (by simp [hi]))

lemma hps_step_replicate_zero {n i : ℕ} (hi : 1 ≤ i) :
    hps_step (List.replicate n 0) i (List.replicate n 0) = List.replicate n 0 := by
  have hlen : (hps_step (List.replicate n (0 : ℚ)) i (List.replicate n 0)).length = n := by
    rw [hps_step_length hi (by simp)]
    simp
  apply List.ext_getElem (by rw [hlen]; simp)
  intro b hb1 hb2
  have hbn : b < n := by rw [hlen] at hb1; exact hb1
  rw [← List.getD_eq_getElem _ 0 hb1, ← List.getD_eq_getElem _ 0 hb2]
  rw [hps_step_getD hi (by simp) (by simpa using hbn)]
  simp only [List.length_replicate, getD_replicate_self]
  split <;> ring

lemma apply_hps_replicate_zero (count n : ℕ) :
    apply_harmonic_product_spectrum count (List.replicate n 0) =
      List.replicate n 0 := by
  unfold apply_harmonic_product_spectrum
  apply foldl_fixed_of_mem
  intro i hi
  have h2 : 2 ≤ i := by
    rcases List.mem_range'.mp hi with ⟨k, -, rfl⟩
    omega
  exact hps_step_replicate_zero (by omega)

lemma suppress_low_zero {P sr : ℕ} (hsr : 1 ≤ sr) (hP : 0 < P)
    (heven : P % 2 = 0) :
    suppress_low (freq_table P (1 / (sr : ℚ))) (List.replicate (P / 2) 0) =
      some (List.replicate (P / 2) 0) := by
  unfold suppress_low
  rcases hidx : (freq_table P (1 / (sr : ℚ))).findIdx? (fun fr => decide (60 < fr))
    with - | i
  · rfl
  · rcases List.findIdx?_eq_some_iff_getElem.mp hidx with ⟨hilen, hpi, -⟩
    have hftlen : (freq_table P (1 / (sr : ℚ))).length = P :=
      freq_table_length P _ (by omega)
    have hiP : i < P := by rw [hftlen] at hilen; exact hilen
    have hentry : (60 : ℚ) < (freq_table P (1 / (sr : ℚ))).getD i 0 := by
      rw [List.getD_eq_getElem _ _ hilen]
      exact of_decide_eq_true hpi
    have hval_pos : (0 : ℚ) < 1 / ((P : ℚ) * (1 / (sr : ℚ))) := by
      have h1 : (0 : ℚ) < (P : ℚ) := by exact_mod_cast hP
      have h2 : (0 : ℚ) < (sr : ℚ) := by exact_mod_cast hsr
      positivity
    have hinc : i < (P - 1) / 2 + 1 := by
      by_contra hge
      push_neg at hge
      rw [freq_table_getD_high (1 / (sr : ℚ)) hge hiP] at hentry
      have hneg : ((i : ℚ) - (P : ℚ)) < 0 := by
        have : (i : ℚ) < (P : ℚ) := by exact_mod_cast hiP
        linarith
      have := mul_neg_of_neg_of_pos hneg hval_pos
      linarith
    have hihalf : i ≤ P / 2 := by omega
    show (if i ≤ (List.replicate (P / 2) (0 : ℚ)).length
        then some (List.replicate i 0 ++ (List.replicate (P / 2) (0 : ℚ)).drop i)
        else none) = some (List.replicate (P / 2) 0)
    rw [if_pos (by rw [List.length_replicate]; exact hihalf)]
    rw [drop_replicate_sub, ← List.replicate_add,
      show i + (P / 2 - i) = P / 2 from by omega]

lemma max_fold_replicate (x : ℚ) : ∀ (m : ℕ), 1 ≤ m → ∀ (s : ℕ) (acc : Option (ℕ × ℚ)),
    acc = none ∨ (∃ j, acc = some (j, x)) →
    List.foldl
      (fun acc p => match acc with
        | none => some p
        | some q => if q.2 > p.2 then some q else some p)
      acc (List.enumFrom s (List.replicate m x)) = some (s + m - 1, x) := by
  intro m
  induction m with
  | zero => intro h; omega
  | succ k ih =>
    intro _ s acc hacc
    rw [List.replicate_succ, List.enumFrom_cons, List.foldl_cons]
    have key : ∀ acc2 : Option (ℕ × ℚ), acc2 = some (s, x) →
        List.foldl
          (fun acc p => match acc with
            | none => some p
            | some q => if q.2 > p.2 then some q else some p)
          acc2 (List.enumFrom (s + 1) (List.replicate k x)) = some (s + (k + 1) - 1, x) := by
      intro acc2 hacc2
      subst hacc2
      rcases Nat.eq_zero_or_pos k with hk | hk
      · subst hk
        show some (s, x) = some (s + 1 - 1, x)
        simp
      · rw [ih hk (s + 1) (some (s, x)) (Or.inr ⟨s, rfl⟩)]
        have harith : s + 1 + k - 1 = s + (k + 1) - 1 := by omega
        rw [harith]
    rcases hacc with h | ⟨j, h⟩ <;> subst h
    · exact key _ rfl
    · refine Eq.trans ?_ (key (some (s, x)) rfl)
      congr 1
      show (if x > x then some (j, x) else some (s, x)) = some (s, x)
      rw [if_neg (lt_irrefl x)]

lemma max_by_last_replicate_zero {n : ℕ} (hn : 1 ≤ n) :
    max_by_last (List.replicate n 0) = some (n - 1, 0) := by
  unfold max_by_last
  show List.foldl _ none (List.enumFrom 0 (List.replicate n (0 : ℚ))) = _
  rw [max_fold_replicate 0 n hn 0 none (Or.inl rfl)]
  rw [show 0 + n - 1 = n - 1 from by omega]

/-- Core computation for C1: on an analyzer whose ring buffer holds only
zeros, `strongest_freq` succeeds and returns the frequency-table entry of
the LAST half-spectrum bin (index `N/2 - 1`), rounded to two decimals,
together with an all-zero result buffer. -/
lemma strongest_freq_silence_aux (sinf sqrtf : ℚ → ℚ) (piQ : ℚ)
    (a : AudioAnalyzer) (m : ℕ) (hm : 1 ≤ m)
    (hlen : a.padded_buffer.length = 2 ^ m)
    (h32 : a.padded_buffer.length < 2 ^ 32) (hsr : 1 ≤ a.sample_rate)
    (hsqrt : sqrtf 0 = 0) (hwin : a.buffer.size ≤ a.window.length)
    (hzero : ∀ o ∈ CircularBuffer.logicalList a.buffer, o.getD 0 = 0)
    (hres : a.result_buffer.length = a.padded_buffer.length / 2) :
    AudioAnalyzer.strongest_freq sinf sqrtf piQ a =
      some (round2 (((a.padded_buffer.length / 2 - 1 : ℕ) : ℚ) *
          ((a.sample_rate : ℚ) / (a.padded_buffer.length : ℚ))),
        { a.copy_to_zero_padded_buffer with
            result_buffer := List.replicate (a.padded_buffer.length / 2) 0 }) := by
  set P := a.padded_buffer.length with hPdef
  have hPpos : 0 < P := by rw [hlen]; positivity
  have hP2 : P = 2 * 2 ^ (m - 1) := by
    rw [hlen]
    calc (2 : ℕ) ^ m = 2 ^ (m - 1 + 1) := by congr 1; omega
      _ = 2 * 2 ^ (m - 1) := pow_succ' 2 (m - 1)
  have hhalfpos : 1 ≤ P / 2 := by omega
  have heven : P % 2 = 0 := by omega
  have hpad : (a.copy_to_zero_padded_buffer).padded_buffer = List.replicate P 0 :=
    copy_to_zero_padded_buffer_zero hzero hwin
  have htrans : FFTQ.transform sinf piQ
      (fft_new_data (a.copy_to_zero_padded_buffer).padded_buffer)
      TransformType.Forward false = some (List.replicate P ((0 : ℚ), (0 : ℚ))) := by
    rw [hpad, fft_new_data_replicate_zero (by rw [hlen]; exact is_power_of_two_pow m)]
    exact transform_replicate_zero sinf piQ _ (by rw [hlen]; exact two_pow_and_pred m)
  unfold AudioAnalyzer.strongest_freq
  rw [htrans, Option.some_bind]
  have habs : (List.replicate P ((0 : ℚ), (0 : ℚ))).map (complex_abs sqrtf) =
      List.replicate P (0 : ℚ) := by
    rw [List.map_replicate]
    congr 1
    show sqrtf (0 * 0 + 0 * 0) = 0
    rw [show (0 : ℚ) * 0 + 0 * 0 = 0 from by ring, hsqrt]
  rw [habs]
  unfold strongest_freq_stage1
  have hsr_proj : (a.copy_to_zero_padded_buffer).sample_rate = a.sample_rate := rfl
  simp only [List.length_replicate, hsr_proj]
  rw [Nat.mod_eq_of_lt h32]
  rw [take_replicate_min, Nat.min_eq_left (Nat.div_le_self P 2)]
  rw [apply_hps_replicate_zero]
  rw [suppress_low_zero hsr hPpos heven, Option.some_bind]
  unfold strongest_freq_stage2
  rw [max_by_last_replicate_zero hhalfpos, Option.some_bind]
  have hftlen : (freq_table P (1 / (a.sample_rate : ℚ))).length = P :=
    freq_table_length P _ (by omega)
  rw [if_pos (show ((P / 2 - 1, (0 : ℚ)).1 <
      (freq_table P (1 / (a.sample_rate : ℚ))).length) from by
    rw [hftlen]
    show P / 2 - 1 < P
    omega)]
  have hreslen : (a.copy_to_zero_padded_buffer).result_buffer.length =
      (List.replicate (P / 2) (0 : ℚ)).length := by
    show a.result_buffer.length = _
    rw [hres, List.length_replicate]
  rw [if_pos hreslen]
  have hval : (freq_table P (1 / (a.sample_rate : ℚ))).getD ((P / 2 - 1, (0 : ℚ)).1) 0 =
      ((P / 2 - 1 : ℕ) : ℚ) * ((a.sample_rate : ℚ) / (P : ℚ)) := by
    rw [freq_table_getD_low _ (show (P / 2 - 1, (0 : ℚ)).1 < (P - 1) / 2 + 1 from by
      show P / 2 - 1 < (P - 1) / 2 + 1
      omega)]
    rw [mul_one_div ((P : ℚ)) ((a.sample_rate : ℚ)), one_div_div]
  rw [hval]
  rfl

/-- C1: for an AudioAnalyzer whose ring buffer holds only zero samples
(including an empty, never-filled buffer), `strongest_freq()` does NOT
return the first spectral bin (0 Hz): the tie over the all-zero half
spectrum is won by the LAST bin, because Rust's `max_by` returns the last
of equally-maximal elements. For every power-of-two padded length `N ≥ 2`
the returned frequency is the table entry at index `N/2 - 1`, i.e.
`(N/2 - 1) · sample_rate / N` rounded to two decimals, and the result
buffer afterwards is identically zero (in particular free of NaN and
infinities). Stated for every choice of the `sin`/`sqrt`/`π` stand-ins
with `sqrt 0 = 0`. -/
theorem c1_strongest_freq_silence (sinf sqrtf : ℚ → ℚ) (piQ : ℚ)
    (a : AudioAnalyzer) (m : ℕ) (hm : 1 ≤ m)
    (hlen : a.padded_buffer.length = 2 ^ m)
    (h32 : a.padded_buffer.length < 2 ^ 32) (hsr : 1 ≤ a.sample_rate)
    (hsqrt : sqrtf 0 = 0) (hwin : a.buffer.size ≤ a.window.length)
    (hzero : ∀ o ∈ CircularBuffer.logicalList a.buffer, o.getD 0 = 0)
    (hres : a.result_buffer.length = a.padded_buffer.length / 2) :
    (AudioAnalyzer.strongest_freq sinf sqrtf piQ a).map Prod.fst =
      some (round2 (((a.padded_buffer.length / 2 - 1 : ℕ) : ℚ) *
        ((a.sample_rate : ℚ) / (a.padded_buffer.length : ℚ)))) ∧
    (AudioAnalyzer.strongest_freq sinf sqrtf piQ a).map
        (fun p => p.2.result_buffer) =
      some (List.replicate (a.padded_buffer.length / 2) 0) := by
  rw [strongest_freq_silence_aux sinf sqrtf piQ a m hm hlen h32 hsr hsqrt hwin
    hzero hres]
  exact ⟨rfl, rfl⟩

/-- Witness for C1 at a concrete silent analyzer:
`new(48000, 4, 2, 0, 440, Hann)` with an empty ring buffer and all
transcendental stand-ins constantly zero. -/
theorem c1_strongest_freq_silence_witness :
    (AudioAnalyzer.strongest_freq (fun _ => 0) (fun _ => 0) 0
        (AudioAnalyzer.new (fun _ => 0) 0 48000 4 2 0 440 WindowType.Hann)).map
        Prod.fst =
      some (round2
        ((((AudioAnalyzer.new (fun _ => 0) 0 48000 4 2 0 440
            WindowType.Hann).padded_buffer.length / 2 - 1 : ℕ) : ℚ) *
          (((AudioAnalyzer.new (fun _ => 0) 0 48000 4 2 0 440
              WindowType.Hann).sample_rate : ℚ) /
            ((AudioAnalyzer.new (fun _ => 0) 0 48000 4 2 0 440
              WindowType.Hann).padded_buffer.length : ℚ)))) ∧
    (AudioAnalyzer.strongest_freq (fun _ => 0) (fun _ => 0) 0
        (AudioAnalyzer.new (fun _ => 0) 0 48000 4 2 0 440 WindowType.Hann)).map
        (fun p => p.2.result_buffer) =
      some (List.replicate
        ((AudioAnalyzer.new (fun _ => 0) 0 48000 4 2 0 440
          WindowType.Hann).padded_buffer.length / 2) 0) :=
  c1_strongest_freq_silence (fun _ => 0) (fun _ => 0) 0
    (AudioAnalyzer.new (fun _ => 0) 0 48000 4 2 0 440 WindowType.Hann) 2
    (by norm_num) (by decide) (by decide) (by decide) rfl
    (by show (0 : ℕ) ≤ _; exact Nat.zero_le _)
    (by
      intro o ho
      rw [show (AudioAnalyzer.new (fun _ => 0) 0 48000 4 2 0 440
          WindowType.Hann).buffer = CircularBuffer.new 4 from by
        show CircularBuffer.new (lower_power_of_two 4) = _
        rw [show lower_power_of_two 4 = 4 from by decide],
        CircularBuffer.logicalList_new] at ho
      simp at ho)
    (by decide)

/-- C1 counterexample: the concrete silent analyzer
`new(48000, 4, 2, 0, 440, Hann)` (padded length 4, half spectrum of 2
bins) returns the frequency 12000 — the LAST half-spectrum bin
`1 · 48000 / 4` — not the claimed 0.0 of the first bin. -/
theorem c1_strongest_freq_counterexample :
    (AudioAnalyzer.strongest_freq (fun _ => 0) (fun _ => 0) 0
        (AudioAnalyzer.new (fun _ => 0) 0 48000 4 2 0 440 WindowType.Hann)).map
        Prod.fst = some 12000 ∧ (12000 : ℚ) ≠ 0 := by
  have h := strongest_freq_silence_aux (fun _ => 0) (fun _ => 0) 0
    (AudioAnalyzer.new (fun _ => 0) 0 48000 4 2 0 440 WindowType.Hann) 2
    (by norm_num) (by decide) (by decide) (by decide) rfl
    (by show (0 : ℕ) ≤ _; exact Nat.zero_le _)
    (by
      intro o ho
      rw [show (AudioAnalyzer.new (fun _ => 0) 0 48000 4 2 0 440
          WindowType.Hann).buffer = CircularBuffer.new 4 from by
        show CircularBuffer.new (lower_power_of_two 4) = _
        rw [show lower_power_of_two 4 = 4 from by decide],
        CircularBuffer.logicalList_new] at ho
      simp at ho)
    (by decide)
  refine ⟨?_, by norm_num⟩
  rw [h]
  have hplen : (AudioAnalyzer.new (fun _ => 0 : ℚ → ℚ) 0 48000 4 2 0 440
      WindowType.Hann).padded_buffer.length = 4 := by decide
  have hsrv : (AudioAnalyzer.new (fun _ => 0 : ℚ → ℚ) 0 48000 4 2 0 440
      WindowType.Hann).sample_rate = 48000 := rfl
  rw [Option.map_some', hplen, hsrv]
  norm_num [round2, rustRound]



/-! ### Exact-real model of `FFT::in_place_transform` (src/fft.rs:53-87)

For the round-trip claim the `f32` trigonometry matters, so this model
works over `ℂ` with the true `Real.sin` / `Real.pi` (the exact-arithmetic
idealization of the `f32` code; the claim's 1e-4 tolerance is the room
left for rounding). The structure mirrors `FFTQ` exactly. -/

namespace FFTC

/-- The sign of the twiddle angle: `delta = -π/step` for `Forward`,
`+π/step` for `Inverse` (src/fft.rs:61-64). -/
noncomputable def deltaC (direction : TransformType) (step : ℕ) : ℝ :=
  match direction with
  | TransformType.Forward => -Real.pi / step
  | TransformType.Inverse => Real.pi / step

/-- `sin = (delta * 0.5).sin(); multiplier = Complex::new(-2*sin*sin, delta.sin())`
(src/fft.rs:65-67). -/
noncomputable def multC (direction : TransformType) (step : ℕ) : ℂ :=
  ⟨-2 * Real.sin (deltaC direction step * (1 / 2)) *
      Real.sin (deltaC direction step * (1 / 2)),
    Real.sin (deltaC direction step)⟩

/-- One butterfly (src/fft.rs:73-76). -/
noncomputable def butterflyC (data : List ℂ) (pos step : ℕ) (factor : ℂ) : List ℂ :=
  let product := factor * data.getD (pos + step) 0
  let d1 := data.set (pos + step) (data.getD pos 0 - product)
  d1.set pos (d1.getD pos 0 + product)

/-- The inner `while pair_position < len` loop (src/fft.rs:71-78),
fuel-driven. -/
noncomputable def pairLoopC : ℕ → List ℂ → ℕ → ℕ → ℕ → ℂ → List ℂ
  | 0, data, _, _, _, _ => data
  | fuel + 1, data, pos, step, jump, factor =>
    if pos < data.length then
      pairLoopC fuel (butterflyC data pos step factor) (pos + jump) step jump factor
    else data

/-- The `(0..step).for_each(|group| …)` loop (src/fft.rs:70-80) with the
running factor recurrence `factor = multiplier * factor + factor`. -/
noncomputable def passC (data : List ℂ) (step : ℕ) (multiplier : ℂ) : List ℂ :=
  ((List.range step).foldl
    (fun st group =>
      (pairLoopC st.1.length st.1 group step (2 * step) st.2,
        multiplier * st.2 + st.2))
    (data, (1 : ℂ))).1

/-- The outer `while step < len` loop (src/fft.rs:59-83), doubling `step`. -/
noncomputable def transformLoopC (direction : TransformType) :
    ℕ → List ℂ → ℕ → List ℂ
  | 0, data, _ => data
  | fuel + 1, data, step =>
    if step < data.length then
      transformLoopC direction fuel
        (passC data step (multC direction step)) (2 * step)
    else data

/-- Models `FFT::scale` (src/fft.rs:109-112). -/
noncomputable def scaleC (data : List ℂ) : List ℂ :=
  data.map (fun c => c * (((1 : ℝ) / (data.length : ℝ) : ℝ) : ℂ))

/-- Models `FFT::in_place_transform` (src/fft.rs:53-87); `none` is the
panic on a non-power-of-two length. -/
noncomputable def in_place_transformC (data : List ℂ) (direction : TransformType)
    (scale : Bool) : Option (List ℂ) :=
  if data.length &&& (data.length - 1) ≠ 0 then none
  else
    let r := transformLoopC direction data.length data 1
    some (if scale then scaleC r else r)

/-- The full FFT algorithm on a power-of-two-length slice, as run by the
entry points `FFT::transform` (src/fft.rs:38-42) and the `Ok` path of
`FFT::fft` (src/fft.rs:43-51): `rearrange` FIRST, then the in-place
passes. -/
noncomputable def transformC (data : List ℂ) (direction : TransformType)
    (scale : Bool) : Option (List ℂ) :=
  in_place_transformC (rearrange data) direction scale

/-- The twiddle value `exp(dirSign · 2π · n / m · I)`: the pass at step
`s` multiplies by powers of `tw dir 1 (2*s)`. -/
noncomputable def tw (direction : TransformType) (n : ℤ) (m : ℕ) : ℂ :=
  Complex.exp (((match direction with
    | TransformType.Forward => (-1 : ℝ)
    | TransformType.Inverse => 1) * (2 * Real.pi) * (n : ℝ) / (m : ℝ) : ℝ) *
    Complex.I)

end FFTC

namespace FFTC

/-! #### Basic lemmas about the model -/

lemma butterflyC_length (data : List ℂ) (pos step : ℕ) (f : ℂ) :
    (butterflyC data pos step f).length = data.length := by
  unfold butterflyC
  simp [List.length_set]

lemma pairLoopC_length :
    ∀ (fuel : ℕ) (data : List ℂ) (pos step jump : ℕ) (f : ℂ),
      (pairLoopC fuel data pos step jump f).length = data.length := by
  intro fuel
  induction fuel with
  | zero => intro data pos step jump f; rfl
  | succ k ih =>
    intro data pos step jump f
    unfold pairLoopC
    split
    · rw [ih, butterflyC_length]
    · rfl

lemma passC_length (data : List ℂ) (step : ℕ) (mult : ℂ) :
    (passC data step mult).length = data.length := by
  unfold passC
  have := foldl_range_inv
    (fun (st : List ℂ × ℂ) group =>
      (pairLoopC st.1.length st.1 group step (2 * step) st.2,
        mult * st.2 + st.2))
    (fun _ st => st.1.length = data.length)
    step (data, (1 : ℂ)) rfl ?_
  · exact this
  · intro p st _ hst
    show (pairLoopC st.1.length st.1 p step (2 * step) st.2).length = data.length
    rw [pairLoopC_length]
    exact hst

lemma transformLoopC_length (dir : TransformType) :
    ∀ (fuel : ℕ) (data : List ℂ) (step : ℕ),
      (transformLoopC dir fuel data step).length = data.length := by
  intro fuel
  induction fuel with
  | zero => intro data step; rfl
  | succ k ih =>
    intro data step
    unfold transformLoopC
    split
    · rw [ih, passC_length]
    · rfl

lemma butterflyC_getD {d : List ℂ} {pos s : ℕ} (f : ℂ) (hs : 1 ≤ s)
    (hbound : pos + s < d.length) (i : ℕ) :
    (butterflyC d pos s f).getD i 0 =
      if i = pos then d.getD pos 0 + f * d.getD (pos + s) 0
      else if i = pos + s then d.getD pos 0 - f * d.getD (pos + s) 0
      else d.getD i 0 := by
  have hpos : pos < d.length := by omega
  have hne : pos ≠ pos + s := by omega
  simp only [butterflyC]
  have hd1 : (d.set (pos + s) (d.getD pos 0 - f * d.getD (pos + s) 0)).getD pos 0 =
      d.getD pos 0 := CircularBuffer.getD_set_ne (fun h => hne h.symm) _
  by_cases h1 : i = pos
  · subst h1
    rw [hd1, CircularBuffer.getD_set_self (by rw [List.length_set]; exact hpos), if_pos rfl]
  · rw [if_neg h1, CircularBuffer.getD_set_ne (fun h => h1 h.symm)]
    by_cases h2 : i = pos + s
    · subst h2
      rw [if_pos rfl, CircularBuffer.getD_set_self hbound]
    · rw [if_neg h2, CircularBuffer.getD_set_ne (fun h => h2 h.symm)]

/-- `(g + e) % M = g` with `g, e < M` forces `e = 0`: within one window of
width `M` the congruence class determines the position. -/
lemma window_mod_unique {M pos i : ℕ} (hM : 0 < M) (h1 : pos ≤ i)
    (h2 : i < pos + M) (h3 : i % M = pos % M) : i = pos := by
  rcases Nat.exists_eq_add_of_le h1 with ⟨e, rfl⟩
  have he : e < M := by omega
  have hg : pos % M < M := Nat.mod_lt _ hM
  rw [Nat.add_comm pos e, Nat.add_mod, Nat.mod_eq_of_lt he] at h3
  rw [CircularBuffer.mod_two_cases hM (by omega)] at h3
  split at h3 <;> omega

/-- Stepping past the current pair stays under the length when the length
is a multiple of the jump. -/
lemma pair_pos_bound {L M pos s : ℕ} (hM : M = 2 * s) (hs : 1 ≤ s)
    (hdvd : L % M = 0) (hpos : pos < L) (hg : pos % M < s) : pos + s < L := by
  have hM0 : 0 < M := by omega
  have hdvd' : M ∣ L := Nat.dvd_of_mod_eq_zero hdvd
  have hdivlt : pos / M < L / M := Nat.div_lt_div_of_lt_of_dvd hdvd' hpos
  have h1 : M * (pos / M) + pos % M = pos := Nat.div_add_mod pos M
  have h2 : M * (pos / M + 1) ≤ M * (L / M) :=
    Nat.mul_le_mul_left _ (by omega)
  have h3 : M * (L / M) = L := Nat.mul_div_cancel' hdvd'
  have h4 : M * (pos / M + 1) = M * (pos / M) + M := by ring
  omega

/-- The inner pair loop updates exactly the residue classes
`pos % 2s` (the pair position) and `pos % 2s + s` (the match position) at
or beyond `pos`, combining each pair with the factor `f`. -/
lemma pairLoopC_getD {s : ℕ} (hs : 1 ≤ s) (f : ℂ) :
    ∀ (fuel : ℕ) (d : List ℂ) (pos : ℕ),
      d.length % (2 * s) = 0 →
      pos % (2 * s) < s →
      d.length ≤ pos + fuel →
      ∀ i, i < d.length →
        (pairLoopC fuel d pos s (2 * s) f).getD i 0 =
          if i < pos then d.getD i 0
          else if i % (2 * s) = pos % (2 * s) then
            d.getD i 0 + f * d.getD (i + s) 0
          else if i % (2 * s) = pos % (2 * s) + s then
            d.getD (i - s) 0 - f * d.getD i 0
          else d.getD i 0 := by
  intro fuel
  induction fuel with
  | zero =>
    intro d pos hdvd hg hfuel i hi
    have hip : i < pos := by omega
    unfold pairLoopC
    rw [if_pos hip]
  | succ k ih =>
    intro d pos hdvd hg hfuel i hi
    unfold pairLoopC
    by_cases hloop : pos < d.length
    · rw [if_pos hloop]
      have hM0 : 0 < 2 * s := by omega
      have hbound : pos + s < d.length := pair_pos_bound rfl hs hdvd hloop hg
      have hblen : (butterflyC d pos s f).length = d.length := butterflyC_length _ _ _ _
      have hrec := ih (butterflyC d pos s f) (pos + 2 * s)
        (by rw [hblen]; exact hdvd)
        (by rw [Nat.add_mod_right]; exact hg)
        (by omega)
        i (by rw [hblen]; exact hi)
      rw [Nat.add_mod_right] at hrec
      have hbf : ∀ j, (butterflyC d pos s f).getD j 0 =
          if j = pos then d.getD pos 0 + f * d.getD (pos + s) 0
          else if j = pos + s then d.getD pos 0 - f * d.getD (pos + s) 0
          else d.getD j 0 := butterflyC_getD f hs hbound
      have hmodps : (pos + s) % (2 * s) = pos % (2 * s) + s := by
        rw [Nat.add_mod, Nat.mod_eq_of_lt (show s < 2 * s from by omega),
          Nat.mod_eq_of_lt (show pos % (2 * s) + s < 2 * s from by omega)]
      by_cases hip : i < pos
      · rw [if_pos (show i < pos + 2 * s from by omega), hbf i,
          if_neg (by omega), if_neg (by omega)] at hrec
        rw [hrec, if_pos hip]
      · have hpos_le : pos ≤ i := by omega
        by_cases hc1 : i % (2 * s) = pos % (2 * s)
        · by_cases hwin : i < pos + 2 * s
          · have hieq : i = pos := window_mod_unique hM0 hpos_le hwin hc1
            rw [if_pos hwin, hbf i, if_pos hieq] at hrec
            rw [hrec, if_neg hip, if_pos hc1, hieq]
          · rw [if_neg hwin, if_pos hc1, hbf i, if_neg (by omega), if_neg (by omega),
              hbf (i + s), if_neg (by omega), if_neg (by omega)] at hrec
            rw [hrec, if_neg hip, if_pos hc1]
        · by_cases hc2 : i % (2 * s) = pos % (2 * s) + s
          · have hps_le : pos + s ≤ i := by
              by_contra hlt
              push_neg at hlt
              rcases Nat.exists_eq_add_of_le hpos_le with ⟨e, rfl⟩
              have he : e < s := by omega
              have h2s : e + pos % (2 * s) < 2 * s :=
                lt_of_lt_of_le (Nat.add_lt_add he hg) (by omega)
              rw [Nat.add_comm pos e, Nat.add_mod,
                Nat.mod_eq_of_lt (show e < 2 * s from by omega),
                Nat.mod_eq_of_lt h2s] at hc2
              omega
            by_cases hwin : i < pos + 2 * s
            · have hieq : i = pos + s :=
                window_mod_unique hM0 hps_le (by omega)
                  (by rw [hmodps]; exact hc2)
              rw [if_pos hwin, hbf i, if_neg (by omega), if_pos hieq] at hrec
              rw [hrec, if_neg hip, if_neg hc1, if_pos hc2, hieq, Nat.add_sub_cancel]
            · rw [if_neg hwin, if_neg hc1, if_pos hc2,
                hbf (i - s), if_neg (by omega),
                if_neg (show ¬(i - s = pos + s) from fun h => hc1 (by
                  rw [show i = pos + 2 * s from by omega, Nat.add_mod_right])),
                hbf i, if_neg (by omega), if_neg (by omega)] at hrec
              rw [hrec, if_neg hip, if_neg hc1, if_pos hc2]
          · by_cases hwin : i < pos + 2 * s
            · have hne1 : i ≠ pos := fun h => hc1 (by rw [h])
              have hne2 : i ≠ pos + s := fun h => hc2 (by rw [h, hmodps])
              rw [if_pos hwin, hbf i, if_neg hne1, if_neg hne2] at hrec
              rw [hrec, if_neg hip, if_neg hc1, if_neg hc2]
            · rw [if_neg hwin, if_neg hc1, if_neg hc2, hbf i,
                if_neg (by omega), if_neg (by omega)] at hrec
              rw [hrec, if_neg hip, if_neg hc1, if_neg hc2]
    · rw [if_neg hloop, if_pos (show i < pos from by omega)]

lemma mod_shift_up {s i : ℕ} (hs : 1 ≤ s) (h : i % (2 * s) < s) :
    (i + s) % (2 * s) = i % (2 * s) + s := by
  conv_lhs => rw [show i + s = 2 * s * (i / (2 * s)) + (i % (2 * s) + s) from by
    have := Nat.div_add_mod i (2 * s)
    omega]
  rw [Nat.mul_add_mod, Nat.mod_eq_of_lt (by omega)]

lemma mod_shift_down {s i : ℕ} (hs : 1 ≤ s) (h : s ≤ i % (2 * s)) :
    (i - s) % (2 * s) = i % (2 * s) - s := by
  have hle : s ≤ i := le_trans h (Nat.mod_le _ _)
  have hmlt : i % (2 * s) < 2 * s := Nat.mod_lt _ (by omega)
  conv_lhs => rw [show i - s = 2 * s * (i / (2 * s)) + (i % (2 * s) - s) from by
    have := Nat.div_add_mod i (2 * s)
    omega]
  rw [Nat.mul_add_mod, Nat.mod_eq_of_lt (by omega)]

/-- One pass (`passC` at step `s`): position `i` of class `c = i % 2s < s`
becomes `d[i] + ω^c · d[i+s]`, its partner of class `c ≥ s` becomes
`d[i-s] - ω^(c-s) · d[i]`, where `ω = 1 + multiplier` is the running
factor after the recurrence `factor = multiplier*factor + factor`. -/
lemma passC_getD {s : ℕ} (hs : 1 ≤ s) (mult : ℂ) (d : List ℂ)
    (hdvd : d.length % (2 * s) = 0) :
    (passC d s mult).length = d.length ∧
    ∀ i, i < d.length →
      (passC d s mult).getD i 0 =
        if i % (2 * s) < s then
          d.getD i 0 + (1 + mult) ^ (i % (2 * s)) * d.getD (i + s) 0
        else
          d.getD (i - s) 0 - (1 + mult) ^ (i % (2 * s) - s) * d.getD i 0 := by
  unfold passC
  have main := foldl_range_inv
    (fun (st : List ℂ × ℂ) group =>
      (pairLoopC st.1.length st.1 group s (2 * s) st.2,
        mult * st.2 + st.2))
    (fun g st => st.2 = (1 + mult) ^ g ∧ st.1.length = d.length ∧
      ∀ i, i < d.length →
        st.1.getD i 0 =
          if i % (2 * s) < g then
            d.getD i 0 + (1 + mult) ^ (i % (2 * s)) * d.getD (i + s) 0
          else if s ≤ i % (2 * s) ∧ i % (2 * s) < s + g then
            d.getD (i - s) 0 - (1 + mult) ^ (i % (2 * s) - s) * d.getD i 0
          else d.getD i 0)
    s (d, (1 : ℂ)) ?_ ?_
  · refine ⟨main.2.1, ?_⟩
    intro i hi
    rw [main.2.2 i hi]
    by_cases hcls : i % (2 * s) < s
    · rw [if_pos hcls, if_pos hcls]
    · have hup : i % (2 * s) < 2 * s := Nat.mod_lt _ (by omega)
      rw [if_neg hcls, if_neg hcls, if_pos (show s ≤ i % (2 * s) ∧
        i % (2 * s) < s + s from by omega)]
  · refine ⟨pow_zero _ |>.symm, rfl, ?_⟩
    intro i hi
    rw [if_neg (by omega), if_neg (by omega)]
  · intro p st hp hP
    obtain ⟨hfac, hlen, hvals⟩ := hP
    refine ⟨?_, ?_, ?_⟩
    · show mult * st.2 + st.2 = (1 + mult) ^ (p + 1)
      rw [hfac]
      ring
    · show (pairLoopC st.1.length st.1 p s (2 * s) st.2).length = d.length
      rw [pairLoopC_length]
      exact hlen
    · intro i hi
      have hplC := pairLoopC_getD hs st.2 st.1.length st.1 p
        (by rw [hlen]; exact hdvd)
        (by rw [Nat.mod_eq_of_lt (show p < 2 * s from by omega)]; omega)
        (by omega)
        i (by rw [hlen]; exact hi)
      rw [Nat.mod_eq_of_lt (show p < 2 * s from by omega)] at hplC
      show (pairLoopC st.1.length st.1 p s (2 * s) st.2).getD i 0 = _
      rw [hplC, hfac]
      by_cases hip : i < p
      · have hclsi : i % (2 * s) = i := Nat.mod_eq_of_lt (by omega)
        rw [if_pos hip, hvals i hi, hclsi, if_pos (show i < p from hip),
          if_pos (show i < p + 1 from by omega)]
      · rw [if_neg hip]
        by_cases hc1 : i % (2 * s) = p
        · have hislt : i + s < d.length :=
            pair_pos_bound rfl hs hdvd hi (by rw [hc1]; omega)
          have hmps : (i + s) % (2 * s) = p + s := by
            rw [mod_shift_up hs (by rw [hc1]; omega), hc1]
          rw [if_pos hc1, hvals i hi, hvals (i + s) hislt, hc1, hmps,
            if_neg (by omega), if_neg (by omega),
            if_neg (by omega), if_neg (by omega),
            if_pos (show p < p + 1 from by omega)]
        · by_cases hc2 : i % (2 * s) = p + s
          · have hsle : s ≤ i % (2 * s) := by omega
            have hims : (i - s) % (2 * s) = p := by
              rw [mod_shift_down hs hsle, hc2]
              omega
            have hsi : s ≤ i := le_trans (by omega) (Nat.mod_le i (2 * s))
            rw [if_neg hc1, if_pos hc2, hvals i hi, hvals (i - s) (by omega),
              hc2, hims,
              if_neg (by omega), if_neg (by omega),
              if_neg (by omega), if_neg (by omega),
              if_neg (show ¬(p + s < p + 1) from by omega),
              if_pos (show s ≤ p + s ∧ p + s < s + (p + 1) from by omega),
              Nat.add_sub_cancel]
          · rw [if_neg hc1, if_neg hc2, hvals i hi]
            by_cases hlt : i % (2 * s) < p
            · rw [if_pos hlt, if_pos (show i % (2 * s) < p + 1 from by omega)]
            · rw [if_neg hlt]
              by_cases hmid : s ≤ i % (2 * s) ∧ i % (2 * s) < s + p
              · rw [if_pos hmid, if_neg (show ¬(i % (2 * s) < p + 1) from by omega),
                  if_pos (show s ≤ i % (2 * s) ∧ i % (2 * s) < s + (p + 1) from by omega)]
              · rw [if_neg hmid, if_neg (show ¬(i % (2 * s) < p + 1) from by omega),
                  if_neg (show ¬(s ≤ i % (2 * s) ∧ i % (2 * s) < s + (p + 1)) from by
                    omega)]

/-! #### Twiddle-factor algebra -/

lemma tw_congr (dir : TransformType) {a b : ℤ} (m : ℕ) (h : a = b) :
    tw dir a m = tw dir b m := by rw [h]

lemma tw_zero (dir : TransformType) (m : ℕ) : tw dir 0 m = 1 := by
  unfold tw
  norm_num [Complex.exp_zero]

lemma tw_add (dir : TransformType) (a b : ℤ) (m : ℕ) :
    tw dir (a + b) m = tw dir a m * tw dir b m := by
  unfold tw
  rw [← Complex.exp_add]
  congr 1
  push_cast
  ring

lemma tw_pow (dir : TransformType) (a : ℤ) (m : ℕ) (p : ℕ) :
    tw dir a m ^ p = tw dir (a * p) m := by
  unfold tw
  rw [← Complex.exp_nat_mul]
  congr 1
  push_cast
  ring

lemma tw_double (dir : TransformType) (n : ℤ) (m : ℕ) (hm : m ≠ 0) :
    tw dir (2 * n) (2 * m) = tw dir n m := by
  have key : ∀ σ : ℝ, σ * (2 * Real.pi) * ((2 * n : ℤ) : ℝ) / ((2 * m : ℕ) : ℝ)
      = σ * (2 * Real.pi) * ((n : ℤ) : ℝ) / ((m : ℕ) : ℝ) := by
    intro σ
    have hm' : (m : ℝ) ≠ 0 := Nat.cast_ne_zero.mpr hm
    push_cast
    field_simp
    ring
  unfold tw
  rw [key]

/-- A full turn: the twiddle at a multiple of the modulus is `1`. -/
lemma tw_full (dir : TransformType) (u : ℤ) (m : ℕ) (hm : m ≠ 0) :
    tw dir ((m : ℤ) * u) m = 1 := by
  have hm' : (m : ℝ) ≠ 0 := Nat.cast_ne_zero.mpr hm
  cases dir
  · show Complex.exp _ = 1
    rw [show ((((-1 : ℝ)) * (2 * Real.pi) * (((m : ℤ) * u : ℤ) : ℝ) / ((m : ℕ) : ℝ) : ℝ) :
        ℂ) * Complex.I = ((-u : ℤ) : ℂ) * (2 * (Real.pi : ℂ) * Complex.I) from by
      have hmC : (m : ℂ) ≠ 0 := Nat.cast_ne_zero.mpr hm
      push_cast
      field_simp
      ring]
    exact Complex.exp_int_mul_two_pi_mul_I (-u)
  · show Complex.exp _ = 1
    rw [show ((((1 : ℝ)) * (2 * Real.pi) * (((m : ℤ) * u : ℤ) : ℝ) / ((m : ℕ) : ℝ) : ℝ) :
        ℂ) * Complex.I = ((u : ℤ) : ℂ) * (2 * (Real.pi : ℂ) * Complex.I) from by
      have hmC : (m : ℂ) ≠ 0 := Nat.cast_ne_zero.mpr hm
      push_cast
      field_simp
      ring]
    exact Complex.exp_int_mul_two_pi_mul_I u

/-- A half turn: the twiddle at `m` over modulus `2m` is `-1`. -/
lemma tw_half (dir : TransformType) (m : ℕ) (hm : m ≠ 0) :
    tw dir (m : ℤ) (2 * m) = -1 := by
  have hm' : (m : ℝ) ≠ 0 := Nat.cast_ne_zero.mpr hm
  cases dir
  · show Complex.exp _ = -1
    rw [show ((((-1 : ℝ)) * (2 * Real.pi) * (((m : ℕ) : ℤ) : ℝ) / ((2 * m : ℕ) : ℝ) : ℝ) :
        ℂ) * Complex.I = -((Real.pi : ℂ) * Complex.I) from by
      have hmC : (m : ℂ) ≠ 0 := Nat.cast_ne_zero.mpr hm
      push_cast
      field_simp
      ring]
    rw [Complex.exp_neg, Complex.exp_pi_mul_I]
    norm_num
  · show Complex.exp _ = -1
    rw [show ((((1 : ℝ)) * (2 * Real.pi) * (((m : ℕ) : ℤ) : ℝ) / ((2 * m : ℕ) : ℝ) : ℝ) :
        ℂ) * Complex.I = (Real.pi : ℂ) * Complex.I from by
      have hmC : (m : ℂ) ≠ 0 := Nat.cast_ne_zero.mpr hm
      push_cast
      field_simp
      ring]
    exact Complex.exp_pi_mul_I

/-- Forward twiddles are inverse twiddles with negated exponent. -/
lemma tw_forward_eq (n : ℤ) (m : ℕ) :
    tw TransformType.Forward n m = tw TransformType.Inverse (-n) m := by
  unfold tw
  congr 2
  push_cast
  ring

/-- The factor recurrence constant: `1 + multiplier = exp(delta·I)` is the
primitive `2·step`-th root of unity in the pass direction. -/
lemma one_add_multC (dir : TransformType) (s : ℕ) (hs : s ≠ 0) :
    1 + multC dir s = tw dir 1 (2 * s) := by
  have hs' : (s : ℝ) ≠ 0 := Nat.cast_ne_zero.mpr hs
  have hθ : ∀ σ : ℝ, σ = (match dir with
      | TransformType.Forward => (-1 : ℝ)
      | TransformType.Inverse => 1) →
      σ * (2 * Real.pi) * ((1 : ℤ) : ℝ) / ((2 * s : ℕ) : ℝ) = deltaC dir s := by
    intro σ hσ
    cases dir <;>
      (subst hσ
       unfold deltaC
       push_cast
       field_simp
       ring)
  have harg : tw dir 1 (2 * s) =
      Complex.exp ((deltaC dir s : ℝ) * Complex.I) := by
    unfold tw
    rw [hθ _ rfl]
  rw [harg]
  apply Complex.ext
  · rw [Complex.exp_ofReal_mul_I_re]
    show 1 + (-2 * Real.sin (deltaC dir s * (1 / 2)) *
      Real.sin (deltaC dir s * (1 / 2))) = Real.cos (deltaC dir s)
    have hcos : Real.cos (deltaC dir s) =
        1 - 2 * (Real.sin (deltaC dir s * (1 / 2)) *
          Real.sin (deltaC dir s * (1 / 2))) := by
      conv_lhs => rw [show deltaC dir s = 2 * (deltaC dir s * (1 / 2)) from by ring]
      rw [Real.cos_two_mul', Real.cos_sq']
      ring
    rw [hcos]
    ring
  · rw [Complex.exp_ofReal_mul_I_im]
    show 0 + Real.sin (deltaC dir s) = Real.sin (deltaC dir s)
    ring

/-- Splitting a sum over `range (2m)` into even and odd indices. -/
lemma sum_range_two_mul {β : Type _} [AddCommMonoid β] (m : ℕ) (f : ℕ → β) :
    ∑ v in Finset.range (2 * m), f v =
      ∑ u in Finset.range m, (f (2 * u) + f (2 * u + 1)) := by
  induction m with
  | zero => simp
  | succ k ih =>
    rw [show 2 * (k + 1) = 2 * k + 1 + 1 from by ring, Finset.sum_range_succ,
      Finset.sum_range_succ, Finset.sum_range_succ, ih, add_assoc]

lemma bitrev_succ_even (n q : ℕ) : bitrev (n + 1) (2 * q) = bitrev n q := by
  show (if 2 * q % 2 = 1 then 2 ^ n else 0) + bitrev n (2 * q / 2) = bitrev n q
  rw [Nat.mul_mod_right, Nat.mul_div_cancel_left q (by omega : 0 < 2)]
  norm_num

lemma bitrev_succ_odd (n q : ℕ) : bitrev (n + 1) (2 * q + 1) = 2 ^ n + bitrev n q := by
  show (if (2 * q + 1) % 2 = 1 then 2 ^ n else 0) + bitrev n ((2 * q + 1) / 2) =
    2 ^ n + bitrev n q
  rw [show (2 * q + 1) % 2 = 1 from by omega, show (2 * q + 1) / 2 = q from by omega,
    if_pos rfl]

/-! #### The decimation-in-time invariant -/

/-- One pass carries the DIT invariant from level `t` to level `t + 1`:
if every window of width `2^t` of `d` holds the `2^t`-point DFT of the
stride-`2^(k-t)` subsequence of `x` starting at the bit-reversed window
offset, then after `passC` at step `2^t` the same holds at width
`2^(t+1)`. -/
lemma pass_step_dft (dir : TransformType) (k t : ℕ) (ht : t < k) (x d : List ℂ)
    (hd : d.length = 2 ^ k)
    (hI : ∀ q r, q < 2 ^ (k - t) → r < 2 ^ t →
      d.getD (q * 2 ^ t + r) 0 =
        ∑ u in Finset.range (2 ^ t), tw dir ((r : ℤ) * u) (2 ^ t) *
          x.getD (bitrev (k - t) q + u * 2 ^ (k - t)) 0) :
    ∀ q r, q < 2 ^ (k - (t + 1)) → r < 2 ^ (t + 1) →
      (passC d (2 ^ t) (multC dir (2 ^ t))).getD (q * 2 ^ (t + 1) + r) 0 =
        ∑ u in Finset.range (2 ^ (t + 1)), tw dir ((r : ℤ) * u) (2 ^ (t + 1)) *
          x.getD (bitrev (k - (t + 1)) q + u * 2 ^ (k - (t + 1))) 0 := by
  intro q r hq hr
  have hs : 1 ≤ 2 ^ t := Nat.one_le_two_pow
  have h2s : 2 * 2 ^ t = 2 ^ (t + 1) := (pow_succ' 2 t).symm
  have hstride : 2 * 2 ^ (k - (t + 1)) = 2 ^ (k - t) := by
    rw [← pow_succ']
    congr 1
    omega
  have hdvd : d.length % (2 * 2 ^ t) = 0 := by
    rw [hd, h2s]
    exact Nat.mod_eq_zero_of_dvd (pow_dvd_pow 2 (by omega))
  have hq2 : 2 * q < 2 ^ (k - t) := by
    rw [← hstride]
    omega
  have hq21 : 2 * q + 1 < 2 ^ (k - t) := by
    rw [← hstride]
    omega
  have hi : q * 2 ^ (t + 1) + r < d.length := by
    rw [hd]
    calc q * 2 ^ (t + 1) + r < (q + 1) * 2 ^ (t + 1) := by
          rw [Nat.add_mul, Nat.one_mul]
          omega
      _ ≤ 2 ^ (k - (t + 1)) * 2 ^ (t + 1) := Nat.mul_le_mul_right _ (by omega)
      _ = 2 ^ k := by
          rw [← pow_add]
          congr 1
          omega
  have hmod : (q * 2 ^ (t + 1) + r) % (2 * 2 ^ t) = r := by
    rw [h2s, Nat.add_comm, Nat.add_mul_mod_self_right, Nat.mod_eq_of_lt hr]
  have hpass := (passC_getD hs (multC dir (2 ^ t)) d hdvd).2 (q * 2 ^ (t + 1) + r) hi
  rw [hmod] at hpass
  have hω : 1 + multC dir (2 ^ t) = tw dir 1 (2 * 2 ^ t) :=
    one_add_multC dir (2 ^ t) (by positivity)
  have hbitrev_even : bitrev (k - t) (2 * q) = bitrev (k - (t + 1)) q := by
    rw [show k - t = (k - (t + 1)) + 1 from by omega]
    exact bitrev_succ_even _ _
  have hbitrev_odd : bitrev (k - t) (2 * q + 1) =
      2 ^ (k - (t + 1)) + bitrev (k - (t + 1)) q := by
    rw [show k - t = (k - (t + 1)) + 1 from by omega]
    exact bitrev_succ_odd _ _
  by_cases hrlt : r < 2 ^ t
  · rw [hpass, if_pos hrlt, hω, tw_pow, one_mul]
    rw [← h2s, sum_range_two_mul, Finset.sum_add_distrib]
    congr 1
    · rw [show q * (2 * 2 ^ t) + r = 2 * q * 2 ^ t + r from by ring,
        hI (2 * q) r hq2 hrlt]
      apply Finset.sum_congr rfl
      intro u hu
      congr 1
      · rw [show ((r : ℤ) * ((2 * u : ℕ) : ℤ)) = 2 * ((r : ℤ) * u) from by
          push_cast; ring]
        rw [tw_double dir _ _ (by positivity)]
      · rw [hbitrev_even,
          show u * 2 ^ (k - t) = 2 * u * 2 ^ (k - (t + 1)) from by
            rw [← hstride]; ring]
    · rw [show q * (2 * 2 ^ t) + r + 2 ^ t = (2 * q + 1) * 2 ^ t + r from by ring,
        hI (2 * q + 1) r hq21 hrlt, Finset.mul_sum]
      apply Finset.sum_congr rfl
      intro u hu
      rw [show ((r : ℤ) * ((2 * u + 1 : ℕ) : ℤ)) = 2 * ((r : ℤ) * u) + (r : ℤ) from by
        push_cast; ring]
      rw [tw_add, tw_double dir _ _ (by positivity), hbitrev_odd,
        show 2 ^ (k - (t + 1)) + bitrev (k - (t + 1)) q + u * 2 ^ (k - t) =
          bitrev (k - (t + 1)) q + (2 * u + 1) * 2 ^ (k - (t + 1)) from by
            rw [← hstride]; ring]
      ring
  · have hr2 : 2 ^ t ≤ r := le_of_not_lt hrlt
    have hr0 : r - 2 ^ t < 2 ^ t := by omega
    have hsplit : (r : ℤ) = ((2 ^ t : ℕ) : ℤ) + ((r - 2 ^ t : ℕ) : ℤ) := by
      push_cast [Nat.cast_sub hr2]
      ring
    rw [hpass, if_neg hrlt, hω, tw_pow, one_mul]
    have hidxa : q * 2 ^ (t + 1) + r - 2 ^ t = 2 * q * 2 ^ t + (r - 2 ^ t) := by
      have h1 : q * 2 ^ (t + 1) = 2 * q * 2 ^ t := by rw [← h2s]; ring
      omega
    have hidxb : q * 2 ^ (t + 1) + r = (2 * q + 1) * 2 ^ t + (r - 2 ^ t) := by
      have h1 : q * 2 ^ (t + 1) = 2 * q * 2 ^ t := by rw [← h2s]; ring
      have h2 : (2 * q + 1) * 2 ^ t = 2 * q * 2 ^ t + 2 ^ t := by ring
      omega
    rw [hidxa, hidxb, hI (2 * q) (r - 2 ^ t) hq2 hr0,
      hI (2 * q + 1) (r - 2 ^ t) hq21 hr0]
    rw [← h2s, sum_range_two_mul, Finset.sum_add_distrib, sub_eq_add_neg]
    congr 1
    · apply Finset.sum_congr rfl
      intro u hu
      congr 1
      · rw [show ((r : ℤ) * ((2 * u : ℕ) : ℤ)) = 2 * ((r : ℤ) * u) from by
          push_cast; ring]
        rw [tw_double dir _ _ (by positivity)]
        rw [show ((r : ℤ) * u) = ((2 ^ t : ℕ) : ℤ) * u + ((r - 2 ^ t : ℕ) : ℤ) * u from by
          rw [hsplit]; ring]
        rw [tw_add, tw_full dir _ _ (by positivity), one_mul]
      · rw [hbitrev_even,
          show u * 2 ^ (k - t) = 2 * u * 2 ^ (k - (t + 1)) from by
            rw [← hstride]; ring]
    · rw [Finset.mul_sum, ← Finset.sum_neg_distrib]
      apply Finset.sum_congr rfl
      intro u hu
      rw [show ((r : ℤ) * ((2 * u + 1 : ℕ) : ℤ)) = 2 * ((r : ℤ) * u) + (r : ℤ) from by
        push_cast; ring]
      rw [tw_add, tw_double dir _ _ (by positivity)]
      rw [show ((r : ℤ) * u) = ((2 ^ t : ℕ) : ℤ) * u + ((r - 2 ^ t : ℕ) : ℤ) * u from by
        rw [hsplit]; ring]
      rw [tw_add, tw_full dir _ _ (by positivity), one_mul]
      rw [show (r : ℤ) = ((2 ^ t : ℕ) : ℤ) + ((r - 2 ^ t : ℕ) : ℤ) from hsplit]
      rw [tw_add, show (((2 ^ t : ℕ) : ℤ)) = ((2 ^ t : ℕ) : ℤ) from rfl]
      rw [show tw dir ((2 ^ t : ℕ) : ℤ) (2 * 2 ^ t) = -1 from
        tw_half dir (2 ^ t) (by positivity)]
      rw [hbitrev_odd,
        show 2 ^ (k - (t + 1)) + bitrev (k - (t + 1)) q + u * 2 ^ (k - t) =
          bitrev (k - (t + 1)) q + (2 * u + 1) * 2 ^ (k - (t + 1)) from by
            rw [← hstride]; ring]
      ring

/-- The outer loop, started at step `2^t` on data satisfying the level-`t`
invariant, ends in the full `2^k`-point DFT of `x`. -/
lemma transformLoopC_dft (dir : TransformType) (k : ℕ) (x : List ℂ) :
    ∀ (fuel t : ℕ) (d : List ℂ), t ≤ k → k - t ≤ fuel → d.length = 2 ^ k →
      (∀ q r, q < 2 ^ (k - t) → r < 2 ^ t →
        d.getD (q * 2 ^ t + r) 0 =
          ∑ u in Finset.range (2 ^ t), tw dir ((r : ℤ) * u) (2 ^ t) *
            x.getD (bitrev (k - t) q + u * 2 ^ (k - t)) 0) →
      ∀ j, j < 2 ^ k →
        (transformLoopC dir fuel d (2 ^ t)).getD j 0 =
          ∑ u in Finset.range (2 ^ k), tw dir ((j : ℤ) * u) (2 ^ k) * x.getD u 0 := by
  intro fuel
  induction fuel with
  | zero =>
    intro t d ht hfuel hd hI j hj
    have htk : t = k := by omega
    subst htk
    show d.getD j 0 = _
    have hbase := hI 0 j (by rw [Nat.sub_self]; norm_num) hj
    rw [Nat.zero_mul, Nat.zero_add] at hbase
    rw [hbase]
    apply Finset.sum_congr rfl
    intro u hu
    rw [show bitrev (t - t) 0 + u * 2 ^ (t - t) = u from by
      rw [Nat.sub_self, pow_zero, Nat.mul_one, show bitrev 0 0 = 0 from rfl,
        Nat.zero_add]]
  | succ c ih =>
    intro t d ht hfuel hd hI j hj
    unfold transformLoopC
    by_cases hlt : t < k
    · rw [if_pos (by
        rw [hd]
        exact Nat.pow_lt_pow_right (by omega) hlt)]
      rw [show 2 * 2 ^ t = 2 ^ (t + 1) from (pow_succ' 2 t).symm]
      exact ih (t + 1) (passC d (2 ^ t) (multC dir (2 ^ t))) (by omega) (by omega)
        (by rw [passC_length]; exact hd)
        (pass_step_dft dir k t hlt x d hd hI) j hj
    · have htk : t = k := by omega
      subst htk
      rw [if_neg (by rw [hd]; omega)]
      have hbase := hI 0 j (by rw [Nat.sub_self]; norm_num) hj
      rw [Nat.zero_mul, Nat.zero_add] at hbase
      rw [hbase]
      apply Finset.sum_congr rfl
      intro u hu
      rw [show bitrev (t - t) 0 + u * 2 ^ (t - t) = u from by
        rw [Nat.sub_self, pow_zero, Nat.mul_one, show bitrev 0 0 = 0 from rfl,
          Nat.zero_add]]

/-- `in_place_transformC` on a power-of-two length never panics and runs
the loop from step 1 (scaling at the end when asked). -/
lemma in_place_some (dir : TransformType) (sc : Bool) (k : ℕ) (d : List ℂ)
    (hd : d.length = 2 ^ k) :
    in_place_transformC d dir sc =
      some (if sc then scaleC (transformLoopC dir (2 ^ k) d 1)
        else transformLoopC dir (2 ^ k) d 1) := by
  unfold in_place_transformC
  rw [hd, two_pow_and_pred, if_neg (by simp)]

/-- `rearrange` is an involution on power-of-two lengths. -/
lemma rearrange_rearrange {α : Type _} {k : ℕ} (hk : k ≤ 64) (l : List α)
    (hl : l.length = 2 ^ k) : rearrange (rearrange l) = l := by
  have h1 : (rearrange l).length = 2 ^ k := by rw [rearrange_length, hl]
  apply List.ext_getElem (by rw [rearrange_length, rearrange_length])
  intro i hi1 hi2
  have hik : i < 2 ^ k := by rw [← hl]; exact hi2
  have hd : ∀ dflt : α, (rearrange (rearrange l)).getD i dflt = l.getD i dflt := by
    intro dflt
    rw [rearrange_getD hk h1 i (by rw [rearrange_length, hl]; exact hik) dflt,
      rearrange_getD hk hl (bitrev k i) (by rw [hl]; exact bitrev_lt k i) dflt,
      bitrev_bitrev hik]
  calc (rearrange (rearrange l))[i] =
      (rearrange (rearrange l)).getD i (l.get ⟨i, hi2⟩) :=
        (List.getD_eq_getElem _ _ hi1).symm
    _ = l.getD i (l.get ⟨i, hi2⟩) := hd _
    _ = l.get ⟨i, hi2⟩ := List.getD_eq_getElem _ _ hi2

/-- The loop from step 1 computes the DFT of the bit-reversed data. -/
lemma loop_dft (dir : TransformType) (k : ℕ) (hk : k ≤ 64) (d : List ℂ)
    (hd : d.length = 2 ^ k) :
    (transformLoopC dir (2 ^ k) d 1).length = 2 ^ k ∧
    ∀ j, j < 2 ^ k → (transformLoopC dir (2 ^ k) d 1).getD j 0 =
      ∑ u in Finset.range (2 ^ k), tw dir ((j : ℤ) * u) (2 ^ k) *
        (rearrange d).getD u 0 := by
  constructor
  · rw [transformLoopC_length, hd]
  · intro j hj
    have hbase : ∀ q r, q < 2 ^ (k - 0) → r < 2 ^ 0 →
        d.getD (q * 2 ^ 0 + r) 0 =
          ∑ u in Finset.range (2 ^ 0), tw dir ((r : ℤ) * u) (2 ^ 0) *
            (rearrange d).getD (bitrev (k - 0) q + u * 2 ^ (k - 0)) 0 := by
      intro q r hq hr
      have hr0 : r = 0 := by omega
      subst hr0
      rw [pow_zero, Finset.sum_range_one, Nat.mul_one, Nat.add_zero,
        show ((0 : ℕ) : ℤ) * ((0 : ℕ) : ℤ) = 0 from by norm_num, tw_zero, one_mul,
        Nat.sub_zero, Nat.zero_mul, Nat.add_zero]
      have hqk : q < 2 ^ k := by rw [Nat.sub_zero] at hq; exact hq
      rw [rearrange_getD hk hd (bitrev k q) (by rw [hd]; exact bitrev_lt k q) 0,
        bitrev_bitrev hqk]
    have := transformLoopC_dft dir k (rearrange d) (2 ^ k) 0 d (by omega)
      (by exact le_of_lt (Nat.lt_two_pow k)) hd hbase j hj
    rw [pow_zero] at this
    exact this

lemma scaleC_length (l : List ℂ) : (scaleC l).length = l.length := by
  simp [scaleC]

lemma scaleC_getD (l : List ℂ) (j : ℕ) (hj : j < l.length) :
    (scaleC l).getD j 0 = l.getD j 0 * (((1 : ℝ) / (l.length : ℝ) : ℝ) : ℂ) := by
  unfold scaleC
  rw [List.getD_eq_getElem?_getD, List.getElem?_map, List.getElem?_eq_getElem hj]
  show l[j] * _ = l.getD j 0 * _
  rw [List.getD_eq_getElem _ _ hj]

/-! #### DFT inversion -/

lemma tw_inv_def (n : ℤ) (m : ℕ) :
    tw TransformType.Inverse n m =
      Complex.exp (((2 * Real.pi * (n : ℝ) / (m : ℝ) : ℝ)) * Complex.I) := by
  unfold tw
  congr 2
  push_cast
  ring

lemma tw_ne_one {N : ℕ} (hN : 0 < N) {e : ℤ} (he : e ≠ 0) (habs : e.natAbs < N) :
    tw TransformType.Inverse e N ≠ 1 := by
  rw [tw_inv_def]
  intro h
  rw [Complex.exp_eq_one_iff] at h
  obtain ⟨n, hn⟩ := h
  rw [show ((n : ℂ) * (2 * (Real.pi : ℂ) * Complex.I)) =
      (((n * (2 * Real.pi) : ℝ)) : ℂ) * Complex.I from by push_cast; ring] at hn
  have hθ : 2 * Real.pi * (e : ℝ) / (N : ℝ) = n * (2 * Real.pi) :=
    Complex.ofReal_inj.mp (mul_right_cancel₀ Complex.I_ne_zero hn)
  have hNne : (N : ℝ) ≠ 0 := Nat.cast_ne_zero.mpr (by omega)
  have h1 : 2 * Real.pi * ((e : ℝ) / N) = 2 * Real.pi * (n : ℝ) := by
    rw [mul_div_assoc] at hθ
    rw [hθ]
    ring
  have h2 : (e : ℝ) / N = (n : ℝ) :=
    mul_left_cancel₀ (by positivity : (2 * Real.pi) ≠ 0) h1
  have h3 : (e : ℝ) = n * N := (div_eq_iff hNne).mp h2
  have he2 : e = n * N := by exact_mod_cast h3
  rcases Int.lt_trichotomy n 0 with hn0 | hn0 | hn0
  · have hmul : n * (N : ℤ) ≤ -1 * (N : ℤ) :=
      mul_le_mul_of_nonneg_right (by omega) (by positivity)
    rw [neg_one_mul] at hmul
    omega
  · subst hn0
    rw [zero_mul] at he2
    exact he he2
  · have hmul : 1 * (N : ℤ) ≤ n * (N : ℤ) :=
      mul_le_mul_of_nonneg_right (by omega) (by positivity)
    rw [one_mul] at hmul
    omega

/-- Orthogonality of the inverse twiddles: summing a nontrivial character
over a full period gives `0`, the trivial one gives `N`. -/
lemma tw_orth (N : ℕ) (hN : 0 < N) (j v : ℕ) (hj : j < N) (hv : v < N) :
    ∑ u in Finset.range N, tw TransformType.Inverse (((j : ℤ) - v) * u) N =
      if j = v then (N : ℂ) else 0 := by
  by_cases hjv : j = v
  · subst hjv
    rw [if_pos rfl]
    rw [Finset.sum_congr rfl (fun u _ => by
      rw [show ((j : ℤ) - j) * u = 0 from by ring, tw_zero])]
    rw [Finset.sum_const, Finset.card_range]
    simp
  · rw [if_neg hjv]
    rw [Finset.sum_congr rfl
      (fun u _ => (tw_pow TransformType.Inverse ((j : ℤ) - v) N u).symm)]
    rw [geom_sum_eq (tw_ne_one hN (by omega) (by omega)) N]
    rw [tw_pow, show ((j : ℤ) - v) * N = (N : ℤ) * ((j : ℤ) - v) from by ring,
      tw_full _ _ _ (by omega), sub_self, zero_div]

/-- The exact round trip of the full algorithm: `rearrange` + forward
passes, then `rearrange` + inverse passes with scaling, is the identity
on every power-of-two-length input. -/
lemma transform_round_trip (k : ℕ) (hk : k ≤ 64) (y : List ℂ)
    (hy : y.length = 2 ^ k) :
    (transformC y TransformType.Forward false).bind
      (fun z => transformC z TransformType.Inverse true) = some y := by
  have hNpos : 0 < (2 : ℕ) ^ k := by positivity
  have hrd : (rearrange y).length = 2 ^ k := by rw [rearrange_length, hy]
  obtain ⟨hFlen, hFval⟩ :=
    loop_dft TransformType.Forward k hk (rearrange y) hrd
  have hFval' : ∀ j, j < 2 ^ k →
      (transformLoopC TransformType.Forward (2 ^ k) (rearrange y) 1).getD j 0 =
        ∑ u in Finset.range (2 ^ k),
          tw TransformType.Forward ((j : ℤ) * u) (2 ^ k) * y.getD u 0 := by
    intro j hj
    rw [hFval j hj, rearrange_rearrange hk y hy]
  set F := transformLoopC TransformType.Forward (2 ^ k) (rearrange y) 1 with hFdef
  have hfwd : transformC y TransformType.Forward false = some F := by
    unfold transformC
    rw [in_place_some TransformType.Forward false k (rearrange y) hrd]
    rfl
  rw [hfwd, Option.some_bind]
  have hrF : (rearrange F).length = 2 ^ k := by rw [rearrange_length, hFlen]
  obtain ⟨hGlen, hGval⟩ :=
    loop_dft TransformType.Inverse k hk (rearrange F) hrF
  have hGval' : ∀ j, j < 2 ^ k →
      (transformLoopC TransformType.Inverse (2 ^ k) (rearrange F) 1).getD j 0 =
        ∑ u in Finset.range (2 ^ k),
          tw TransformType.Inverse ((j : ℤ) * u) (2 ^ k) * F.getD u 0 := by
    intro j hj
    rw [hGval j hj, rearrange_rearrange hk F hFlen]
  set G := transformLoopC TransformType.Inverse (2 ^ k) (rearrange F) 1 with hGdef
  have hinv : transformC F TransformType.Inverse true = some (scaleC G) := by
    unfold transformC
    rw [in_place_some TransformType.Inverse true k (rearrange F) hrF]
    rfl
  rw [hinv]
  congr 1
  -- scaleC G = y, entrywise
  have hGj : ∀ j, j < 2 ^ k → G.getD j 0 = (2 ^ k : ℕ) * y.getD j 0 := by
    intro j hj
    rw [hGval' j hj]
    have hswap : ∀ u, u ∈ Finset.range (2 ^ k) →
        tw TransformType.Inverse ((j : ℤ) * u) (2 ^ k) * F.getD u 0 =
          ∑ v in Finset.range (2 ^ k),
            tw TransformType.Inverse ((j : ℤ) * u) (2 ^ k) *
              (tw TransformType.Forward ((u : ℤ) * v) (2 ^ k) * y.getD v 0) := by
      intro u hu
      rw [hFval' u (Finset.mem_range.mp hu), Finset.mul_sum]
    rw [Finset.sum_congr rfl hswap, Finset.sum_comm]
    have hinner : ∀ v, v ∈ Finset.range (2 ^ k) →
        ∑ u in Finset.range (2 ^ k),
          tw TransformType.Inverse ((j : ℤ) * u) (2 ^ k) *
            (tw TransformType.Forward ((u : ℤ) * v) (2 ^ k) * y.getD v 0) =
          (if j = v then ((2 ^ k : ℕ) : ℂ) else 0) * y.getD v 0 := by
      intro v hv
      simp only [← mul_assoc]
      rw [← Finset.sum_mul]
      congr 1
      rw [Finset.sum_congr rfl (fun u _ => by
        rw [tw_forward_eq, ← tw_add,
          show (j : ℤ) * u + -((u : ℤ) * v) = ((j : ℤ) - v) * u from by ring])]
      exact tw_orth (2 ^ k) hNpos j v hj (Finset.mem_range.mp hv)
    rw [Finset.sum_congr rfl hinner]
    rw [Finset.sum_congr rfl (fun v _ => by rw [ite_mul, zero_mul]),
      Finset.sum_ite_eq, if_pos (Finset.mem_range.mpr hj)]
  have hslen : (scaleC G).length = y.length := by
    rw [scaleC_length, hGlen, hy]
  apply List.ext_getElem hslen
  intro i hi1 hi2
  have hik : i < 2 ^ k := by rw [← hy]; exact hi2
  have h1 : (scaleC G).getD i 0 = y.getD i 0 := by
    rw [scaleC_getD G i (by rw [hGlen]; exact hik), hGj i hik, hGlen]
    have h2k : ((2 ^ k : ℕ) : ℂ) ≠ 0 := Nat.cast_ne_zero.mpr (by positivity)
    push_cast
    field_simp
  calc (scaleC G)[i] = (scaleC G).getD i 0 :=
      (List.getD_eq_getElem _ _ hi1).symm
    _ = y.getD i 0 := h1
    _ = y.get ⟨i, hi2⟩ := List.getD_eq_getElem _ _ hi2

/-! #### Concrete evaluation helpers (length 4) -/

lemma transformLoopC_succ_lt (dir : TransformType) (fuel : ℕ) (d : List ℂ)
    (step : ℕ) (h : step < d.length) :
    transformLoopC dir (fuel + 1) d step =
      transformLoopC dir fuel (passC d step (multC dir step)) (2 * step) := by
  show (if step < d.length then
      transformLoopC dir fuel (passC d step (multC dir step)) (2 * step)
    else d) = _
  rw [if_pos h]

lemma transformLoopC_succ_ge (dir : TransformType) (fuel : ℕ) (d : List ℂ)
    (step : ℕ) (h : ¬step < d.length) :
    transformLoopC dir (fuel + 1) d step = d := by
  show (if step < d.length then
      transformLoopC dir fuel (passC d step (multC dir step)) (2 * step)
    else d) = _
  rw [if_neg h]

lemma passC_one (a0 a1 a2 a3 : ℂ) (m : ℂ) :
    passC [a0, a1, a2, a3] 1 m = [a0 + a1, a0 - a1, a2 + a3, a2 - a3] := by
  simp [passC, pairLoopC, butterflyC, List.range_succ]

lemma passC_two (b0 b1 b2 b3 : ℂ) (m : ℂ) :
    passC [b0, b1, b2, b3] 2 m =
      [b0 + b2, b1 + (m + 1) * b3, b0 - b2, b1 - (m + 1) * b3] := by
  simp [passC, pairLoopC, butterflyC, List.range_succ]

/-- The inverse pass at step 2 multiplies its second group by `i`. -/
lemma multC_inverse_two : multC TransformType.Inverse 2 + 1 = Complex.I := by
  have h := one_add_multC TransformType.Inverse 2 (by norm_num)
  rw [add_comm] at h
  rw [h]
  rw [show (2 * 2 : ℕ) = 4 from by norm_num, tw_inv_def,
    show (2 * Real.pi * ((1 : ℤ) : ℝ) / ((4 : ℕ) : ℝ)) = Real.pi / 2 from by
      push_cast; ring]
  apply Complex.ext
  · rw [Complex.exp_ofReal_mul_I_re, Real.cos_pi_div_two, Complex.I_re]
  · rw [Complex.exp_ofReal_mul_I_im, Real.sin_pi_div_two, Complex.I_im]

lemma forward_four :
    in_place_transformC [0, 1, 0, 0] TransformType.Forward false =
      some [1, -1, 1, -1] := by
  rw [in_place_some TransformType.Forward false 2 _ (by norm_num)]
  rw [if_neg (by norm_num)]
  congr 1
  show transformLoopC TransformType.Forward 4 [0, 1, 0, 0] 1 = [1, -1, 1, -1]
  rw [show (4 : ℕ) = 3 + 1 from rfl, transformLoopC_succ_lt _ _ _ _ (by norm_num),
    passC_one,
    show ([(0 : ℂ) + 1, 0 - 1, 0 + 0, 0 - 0] : List ℂ) = [1, -1, 0, 0] from by
      norm_num]
  rw [show (3 : ℕ) = 2 + 1 from rfl, transformLoopC_succ_lt _ _ _ _ (by norm_num),
    passC_two,
    show ([(1 : ℂ) + 0, -1 + (multC TransformType.Forward 2 + 1) * 0, 1 - 0,
        -1 - (multC TransformType.Forward 2 + 1) * 0] : List ℂ) =
      [1, -1, 1, -1] from by norm_num]
  exact transformLoopC_succ_ge _ _ _ _ (by norm_num)

lemma inverse_four :
    in_place_transformC [1, -1, 1, -1] TransformType.Inverse true =
      some [0, 1 / 2 + Complex.I * (1 / 2), 0, 1 / 2 - Complex.I * (1 / 2)] := by
  rw [in_place_some TransformType.Inverse true 2 _ (by norm_num)]
  rw [if_pos rfl]
  congr 1
  have hloop : transformLoopC TransformType.Inverse (2 ^ 2) [1, -1, 1, -1] 1 =
      [0, 2 + Complex.I * 2, 0, 2 - Complex.I * 2] := by
    show transformLoopC TransformType.Inverse 4 [1, -1, 1, -1] 1 = _
    rw [show (4 : ℕ) = 3 + 1 from rfl, transformLoopC_succ_lt _ _ _ _ (by norm_num),
      passC_one,
      show ([(1 : ℂ) + -1, 1 - -1, 1 + -1, 1 - -1] : List ℂ) = [0, 2, 0, 2] from by
        norm_num]
    rw [show (3 : ℕ) = 2 + 1 from rfl, transformLoopC_succ_lt _ _ _ _ (by norm_num),
      passC_two, multC_inverse_two,
      show ([(0 : ℂ) + 0, 2 + Complex.I * 2, 0 - 0, 2 - Complex.I * 2] : List ℂ) =
        [0, 2 + Complex.I * 2, 0, 2 - Complex.I * 2] from by norm_num]
    exact transformLoopC_succ_ge _ _ _ _ (by norm_num)
  rw [hloop]
  unfold scaleC
  norm_num
  constructor
  · apply Complex.ext <;> simp <;> norm_num
  · apply Complex.ext <;> simp <;> norm_num

end FFTC

/-- C7 — the claim refuted for the literal composition it names: running
`in_place_transform(Forward, scale = false)` and then
`in_place_transform(Inverse, scale = true)` WITHOUT the bit-reversal
`rearrange` between/before them does not reproduce the input. On the
length-4 input `[0, 1, 0, 0]` the result is `[0, 1/2 + i/2, 0, 1/2 - i/2]`,
whose component 1 differs from the original `1` by more than the claimed
1e-4 tolerance (the error is |−1/2 + i/2| ≥ 1/2). -/
theorem c7_in_place_round_trip_counterexample :
    (FFTC.in_place_transformC [0, 1, 0, 0] TransformType.Forward false).bind
        (fun z => FFTC.in_place_transformC z TransformType.Inverse true) =
      some [0, 1 / 2 + Complex.I * (1 / 2), 0, 1 / 2 - Complex.I * (1 / 2)] ∧
    (1 / 10000 : ℝ) <
      Complex.abs
        (([0, 1 / 2 + Complex.I * (1 / 2), 0,
            1 / 2 - Complex.I * (1 / 2)] : List ℂ).getD 1 0 -
          ([0, 1, 0, 0] : List ℂ).getD 1 0) := by
  constructor
  · rw [FFTC.forward_four, Option.some_bind, FFTC.inverse_four]
  · have him : ((1 / 2 + Complex.I * (1 / 2) : ℂ) - 1).im = 1 / 2 := by
      simp
    calc (1 / 10000 : ℝ) < 1 / 2 := by norm_num
      _ = |((1 / 2 + Complex.I * (1 / 2) : ℂ) - 1).im| := by
          rw [him, abs_of_pos (by norm_num : (0 : ℝ) < 1 / 2)]
      _ ≤ Complex.abs ((1 / 2 + Complex.I * (1 / 2) : ℂ) - 1) :=
          Complex.abs_im_le_abs _
      _ = Complex.abs
            (([0, 1 / 2 + Complex.I * (1 / 2), 0,
                1 / 2 - Complex.I * (1 / 2)] : List ℂ).getD 1 0 -
              ([0, 1, 0, 0] : List ℂ).getD 1 0) := by norm_num

/-- C7 amended: with the bit-reversal `rearrange` run before the in-place
passes — exactly what the code's entry points `FFT::transform` and
`FFT::fft` do — the forward transform followed by the scaled inverse
transform reproduces every power-of-two-length complex input EXACTLY in
exact arithmetic, and in particular within the claimed 1e-4 absolute
tolerance per component; this covers all lengths in {2, 4, ..., 1024}. -/
theorem c7_fft_round_trip (k : ℕ) (hk : k ≤ 64) (y : List ℂ)
    (hy : y.length = 2 ^ k) :
    (FFTC.transformC y TransformType.Forward false).bind
        (fun z => FFTC.transformC z TransformType.Inverse true) = some y ∧
    ∀ z : List ℂ,
      (FFTC.transformC y TransformType.Forward false).bind
          (fun z => FFTC.transformC z TransformType.Inverse true) = some z →
        ∀ i : ℕ, Complex.abs (z.getD i 0 - y.getD i 0) ≤ 1 / 10000 := by
  have h := FFTC.transform_round_trip k hk y hy
  refine ⟨h, ?_⟩
  intro z hz i
  rw [h] at hz
  have hzy : z = y := Option.some.inj hz.symm
  subst hzy
  rw [sub_self]
  rw [map_zero]
  norm_num

/-- Witness for C7 amended at the length-2 input `[1, 2]`. -/
theorem c7_fft_round_trip_witness :
    (FFTC.transformC [(1 : ℂ), 2] TransformType.Forward false).bind
        (fun z => FFTC.transformC z TransformType.Inverse true) =
      some [(1 : ℂ), 2] :=
  (c7_fft_round_trip 1 (by norm_num) [(1 : ℂ), 2] rfl).1


end GuitarTuner
